import Mathlib

/- Verification of the flow-engine workflow orchestrator: a shallow embedding
of its result cache, resource tracker, step dispatcher, graph executor and
async orchestration layer, with theorems about the specified properties. -/

set_option maxHeartbeats 1600000

/- ## Association lists with JavaScript Map semantics
Keys are kept in insertion order; `setKey` overwrites in place, `eraseKey`
removes the (unique, under `keysNodup`) entry for a key. -/

def lookupKey {α : Type} : List (String × α) → String → Option α
  | [], _ => none
  | (k', v) :: rest, k => if k' = k then some v else lookupKey rest k

def setKey {α : Type} : List (String × α) → String → α → List (String × α)
  | [], k, v => [(k, v)]
  | (k', v') :: rest, k, v =>
    if k' = k then (k', v) :: rest else (k', v') :: setKey rest k v

def eraseKey {α : Type} : List (String × α) → String → List (String × α)
  | [], _ => []
  | (k', v') :: rest, k => if k' = k then rest else (k', v') :: eraseKey rest k

def keysOf {α : Type} (l : List (String × α)) : List String :=
  l.map Prod.fst

def keysNodup {α : Type} (l : List (String × α)) : Prop :=
  (keysOf l).Nodup

@[simp] theorem keysOf_nil {α : Type} : keysOf ([] : List (String × α)) = [] := rfl

@[simp] theorem keysOf_cons {α : Type} (p : String × α) (rest : List (String × α)) :
    keysOf (p :: rest) = p.1 :: keysOf rest := rfl

@[simp] theorem keysOf_append {α : Type} (l m : List (String × α)) :
    keysOf (l ++ m) = keysOf l ++ keysOf m := by
  simp [keysOf]

theorem lookupKey_setKey_self {α : Type} (l : List (String × α)) (k : String) (v : α) :
    lookupKey (setKey l k v) k = some v := by
  induction l with
  | nil => simp [setKey, lookupKey]
  | cons p rest ih =>
    obtain ⟨k', v'⟩ := p
    by_cases h : k' = k
    · simp [setKey, h, lookupKey]
    · simp [setKey, h, lookupKey, ih]

theorem lookupKey_setKey_other {α : Type} (l : List (String × α)) (k j : String) (v : α)
    (hne : j ≠ k) : lookupKey (setKey l k v) j = lookupKey l j := by
  have hkj : k ≠ j := fun h => hne (Eq.symm h)
  induction l with
  | nil =>
    simp [setKey, lookupKey, hkj]
  | cons p rest ih =>
    obtain ⟨k', v'⟩ := p
    by_cases h : k' = k
    · subst h
      simp [setKey, lookupKey, hkj]
    · simp [setKey, h, lookupKey, ih]

theorem lookupKey_eraseKey_other {α : Type} (l : List (String × α)) (k j : String)
    (hne : j ≠ k) (hnd : keysNodup l) : lookupKey (eraseKey l k) j = lookupKey l j := by
  induction l with
  | nil => simp [eraseKey]
  | cons p rest ih =>
    obtain ⟨k', v'⟩ := p
    have hnd' : keysNodup rest := (List.nodup_cons.mp hnd).2
    by_cases h : k' = k
    · subst h
      have : k' ≠ j := fun h => hne (Eq.symm h)
      simp [eraseKey, lookupKey, this]
    · simp [eraseKey, h, lookupKey, ih hnd']

theorem keysOf_setKey_mem {α : Type} (l : List (String × α)) (k : String) (v : α)
    (hmem : k ∈ keysOf l) : keysOf (setKey l k v) = keysOf l := by
  induction l with
  | nil => simp at hmem
  | cons p rest ih =>
    obtain ⟨k', v'⟩ := p
    by_cases h : k' = k
    · simp [setKey, h]
    · have hrest : k ∈ keysOf rest := by
        rcases List.mem_cons.mp (by simpa using hmem) with h1 | h2
        · exact absurd (Eq.symm h1) h
        · exact h2
      simp [setKey, h, ih hrest]

theorem keysOf_setKey_fresh {α : Type} (l : List (String × α)) (k : String) (v : α)
    (hmem : k ∉ keysOf l) : keysOf (setKey l k v) = keysOf l ++ [k] := by
  induction l with
  | nil => simp [setKey]
  | cons p rest ih =>
    obtain ⟨k', v'⟩ := p
    have hk' : k' ≠ k := by
      intro h; exact hmem (by simp [h])
    have hrest : k ∉ keysOf rest := fun h => hmem (by simp [h])
    simp [setKey, hk', ih hrest]

theorem keysOf_eraseKey {α : Type} (l : List (String × α)) (k : String) :
    keysOf (eraseKey l k) = (keysOf l).erase k := by
  induction l with
  | nil => simp [eraseKey]
  | cons p rest ih =>
    obtain ⟨k', v'⟩ := p
    by_cases h : k' = k
    · subst h
      simp [eraseKey, List.erase_cons_head]
    · have herase : (k' :: keysOf rest).erase k = k' :: (keysOf rest).erase k :=
        List.erase_cons_tail (by simpa using h)
      simp only [eraseKey, if_neg h, keysOf_cons, herase, ih]

theorem lookupKey_isSome_of_mem {α : Type} (l : List (String × α)) (k : String)
    (hmem : k ∈ keysOf l) : ∃ v, lookupKey l k = some v := by
  induction l with
  | nil => simp at hmem
  | cons p rest ih =>
    obtain ⟨k', v'⟩ := p
    by_cases h : k' = k
    · exact ⟨v', by simp [lookupKey, h]⟩
    · have hrest : k ∈ keysOf rest := by
        rcases List.mem_cons.mp (by simpa using hmem) with h1 | h2
        · exact absurd (Eq.symm h1) h
        · exact h2
      obtain ⟨v, hv⟩ := ih hrest
      exact ⟨v, by simp [lookupKey, h, hv]⟩

theorem lookupKey_none_of_not_mem {α : Type} (l : List (String × α)) (k : String)
    (hmem : k ∉ keysOf l) : lookupKey l k = none := by
  induction l with
  | nil => simp [lookupKey]
  | cons p rest ih =>
    obtain ⟨k', v'⟩ := p
    have hk' : k' ≠ k := by
      intro h; exact hmem (by simp [h])
    have hrest : k ∉ keysOf rest := fun h => hmem (by simp [h])
    simp [lookupKey, hk', ih hrest]

/- ## JSON-like values carried through a flow
Step outputs and flow variables are JSON objects; the claims never need
nesting, so values are flat literals and an object is a `Vars` map. -/

inductive Val : Type where
  | vnull : Val
  | vbool (b : Bool) : Val
  | vint (n : Int) : Val
  | vstr (s : String) : Val
deriving DecidableEq, Repr

abbrev Vars : Type := List (String × Val)

/-- Shallow merge of two variable objects, later keys overwrite earlier ones
(the TS spread `\x7b ...a, ...b \x7d`). -/
def mergeVars (a b : Vars) : Vars :=
  b.foldl (fun acc kv => setKey acc kv.1 kv.2) a

/-- Model of `JSON.stringify` on a flat value. -/
def Val.serialize : Val → String
  | .vnull => "null"
  | .vbool b => toString b
  | .vint n => toString n
  | .vstr s => s

/-- Model of `JSON.stringify` on a variables object. -/
def serializeVars (vs : Vars) : String :=
  String.intercalate "," (vs.map (fun kv => kv.1 ++ ":" ++ kv.2.serialize))

/- ## FlowCache (src FlowCache.ts)
Bounded TTL + LRU cache for flow results. `accessOrder` keeps live keys from
least to most recently used; `get`/`set` move the touched key to the back and
`evictLRU` drops the front. Time is passed explicitly as `now`. -/

structure CacheEntry (α : Type) where
  data : α
  timestamp : Int
  accessCount : Nat
deriving DecidableEq, Repr

structure FlowCache (α : Type) where
  cache : List (String × CacheEntry α)
  maxSize : Nat
  ttl : Int
  accessOrder : List String
deriving DecidableEq, Repr

namespace FlowCache

/-- Fresh cache; the source constructor defaults are maxSize 1000, ttl 300000 ms. -/
def mk0 (α : Type) (maxSize : Nat) (ttl : Int) : FlowCache α :=
  { cache := [], maxSize := maxSize, ttl := ttl, accessOrder := [] }

def removeFromAccessOrder {α : Type} (c : FlowCache α) (key : String) : FlowCache α :=
  { c with accessOrder := c.accessOrder.erase key }

def updateAccessOrder {α : Type} (c : FlowCache α) (key : String) : FlowCache α :=
  { c with accessOrder := c.accessOrder.erase key ++ [key] }

/-- `get`: absent or expired is a miss (an expired entry is deleted);
otherwise the key becomes most recently used and the data is returned.
The entry's `accessCount` is NOT incremented anywhere (mirrors the source). -/
def get {α : Type} (c : FlowCache α) (now : Int) (key : String) :
    Option α × FlowCache α :=
  match lookupKey c.cache key with
  | none => (none, c)
  | some entry =>
    if now - entry.timestamp > c.ttl then
      (none, removeFromAccessOrder { c with cache := eraseKey c.cache key } key)
    else
      (some entry.data, updateAccessOrder c key)

def evictLRU {α : Type} (c : FlowCache α) : FlowCache α :=
  match c.accessOrder with
  | [] => c
  | lru :: rest => { c with cache := eraseKey c.cache lru, accessOrder := rest }

/-- `set`: evict the LRU entry when at capacity, then insert with a fresh
timestamp and accessCount 0 and mark the key most recently used. -/
def set {α : Type} (c : FlowCache α) (now : Int) (key : String) (data : α) :
    FlowCache α :=
  let c1 := if c.cache.length ≥ c.maxSize then evictLRU c else c
  let c2 := { c1 with cache := setKey c1.cache key ⟨data, now, 0⟩ }
  updateAccessOrder c2 key

def deleteKey {α : Type} (c : FlowCache α) (key : String) : FlowCache α :=
  removeFromAccessOrder { c with cache := eraseKey c.cache key } key

def clear {α : Type} (c : FlowCache α) : FlowCache α :=
  { c with cache := [], accessOrder := [] }

structure CacheStats where
  size : Nat
  maxSize : Nat
  hits : Nat
  misses : Nat
  expired : Nat
  hitRate : ℚ
  memoryUsage : Nat
deriving DecidableEq, Repr

/-- `getStats`: hits is the sum of the entries' access counters and misses is
never counted, exactly as in the source (both therefore stay 0). -/
def getStats {α : Type} (c : FlowCache α) (now : Int) (ser : α → String) : CacheStats :=
  let hits := (c.cache.map (fun kv => kv.2.accessCount)).sum
  let misses := 0
  let expired := (c.cache.filter (fun kv => now - kv.2.timestamp > c.ttl)).length
  { size := c.cache.length
    maxSize := c.maxSize
    hits := hits
    misses := misses
    expired := expired
    hitRate := if (hits : ℚ) + (misses : ℚ) = 0 then 0 else (hits : ℚ) / ((hits : ℚ) + misses)
    memoryUsage := (c.cache.map (fun kv => (ser kv.2.data).length)).sum }

end FlowCache

/- ## Recency instrumentation for the LRU claim
A ghost stamp records, for each key, the logical time of its last successful
access (a `get` hit or a `set`); the cache component evolves exactly as
`FlowCache.get`/`FlowCache.set` evolve it. "Least recently accessed" is then
"minimal stamp". -/

structure TCache (α : Type) where
  c : FlowCache α
  stamp : String → Nat
  clock : Nat

namespace TCache

def touch {α : Type} (s : TCache α) (key : String) : TCache α :=
  { s with stamp := fun j => if j = key then s.clock else s.stamp j, clock := s.clock + 1 }

def get {α : Type} (s : TCache α) (now : Int) (key : String) : Option α × TCache α :=
  match FlowCache.get s.c now key with
  | (some v, c') => (some v, { touch s key with c := c' })
  | (none, c') => (none, { s with c := c' })

def set {α : Type} (s : TCache α) (now : Int) (key : String) (data : α) : TCache α :=
  { touch s key with c := FlowCache.set s.c now key data }

/-- Reachability invariant tying the access order to the ghost stamps:
the order lists exactly the live keys, strictly sorted by last-access stamp
(least recent first), all stamped before the current clock. -/
structure Inv {α : Type} (s : TCache α) : Prop where
  orderNodup : s.c.accessOrder.Nodup
  orderPerm : (keysOf s.c.cache).Perm s.c.accessOrder
  orderSorted : s.c.accessOrder.Pairwise (fun a b => s.stamp a < s.stamp b)
  clockBound : ∀ k ∈ s.c.accessOrder, s.stamp k < s.clock

theorem keysNodup_of_inv {α : Type} {s : TCache α} (h : Inv s) : keysNodup s.c.cache :=
  h.orderPerm.symm.nodup h.orderNodup

end TCache

theorem mem_keysOf_of_lookup {α : Type} {l : List (String × α)} {k : String} {v : α}
    (h : lookupKey l k = some v) : k ∈ keysOf l := by
  induction l with
  | nil => simp [lookupKey] at h
  | cons p rest ih =>
    obtain ⟨k', v'⟩ := p
    by_cases hk : k' = k
    · simp [hk]
    · simp only [lookupKey, if_neg hk] at h
      simp [ih h]


namespace FlowCache

theorem get_eq_miss {α : Type} {c : FlowCache α} {now : Int} {key : String}
    (hl : lookupKey c.cache key = none) : get c now key = (none, c) := by
  simp [get, hl]

theorem get_eq_expired {α : Type} {c : FlowCache α} {now : Int} {key : String}
    {entry : CacheEntry α} (hl : lookupKey c.cache key = some entry)
    (hexp : now - entry.timestamp > c.ttl) :
    get c now key =
      (none, removeFromAccessOrder { c with cache := eraseKey c.cache key } key) := by
  simp [get, hl, hexp]

theorem get_eq_hit {α : Type} {c : FlowCache α} {now : Int} {key : String}
    {entry : CacheEntry α} (hl : lookupKey c.cache key = some entry)
    (hexp : ¬ now - entry.timestamp > c.ttl) :
    get c now key = (some entry.data, updateAccessOrder c key) := by
  simp [get, hl, hexp]

theorem evictLRU_nil {α : Type} {c : FlowCache α} (h : c.accessOrder = []) :
    evictLRU c = c := by
  simp [evictLRU, h]

theorem evictLRU_cons {α : Type} {c : FlowCache α} {lru : String} {rest : List String}
    (h : c.accessOrder = lru :: rest) :
    evictLRU c = { c with cache := eraseKey c.cache lru, accessOrder := rest } := by
  simp [evictLRU, h]

theorem set_eq {α : Type} (c : FlowCache α) (now : Int) (key : String) (data : α) :
    set c now key data =
      (let c1 := if c.cache.length ≥ c.maxSize then evictLRU c else c
       { c1 with cache := setKey c1.cache key ⟨data, now, 0⟩,
                 accessOrder := c1.accessOrder.erase key ++ [key] }) := rfl

end FlowCache

namespace TCache

theorem tget_eq_hit {α : Type} {s : TCache α} {now : Int} {key : String}
    {entry : CacheEntry α} (hl : lookupKey s.c.cache key = some entry)
    (hexp : ¬ now - entry.timestamp > s.c.ttl) :
    get s now key = (some entry.data, { touch s key with c := s.c.updateAccessOrder key }) := by
  unfold get
  rw [FlowCache.get_eq_hit hl hexp]

theorem tget_eq_miss {α : Type} {s : TCache α} {now : Int} {key : String}
    (hl : lookupKey s.c.cache key = none) : get s now key = (none, s) := by
  unfold get
  rw [FlowCache.get_eq_miss hl]

theorem tget_eq_expired {α : Type} {s : TCache α} {now : Int} {key : String}
    {entry : CacheEntry α} (hl : lookupKey s.c.cache key = some entry)
    (hexp : now - entry.timestamp > s.c.ttl) :
    get s now key =
      (none, { s with c := FlowCache.removeFromAccessOrder
                             { s.c with cache := eraseKey s.c.cache key } key }) := by
  unfold get
  rw [FlowCache.get_eq_expired hl hexp]

/-- Core step of the invariant: after any operation that installs `cache'`,
moves `key` to the back of the access order, stamps it with the clock and
advances the clock, the invariant holds again. -/
theorem Inv.step_touch {α : Type} {s : TCache α} (h : Inv s) (key : String)
    (cache' : List (String × CacheEntry α))
    (hperm : (keysOf cache').Perm (s.c.accessOrder.erase key ++ [key])) :
    Inv ⟨{ s.c with cache := cache', accessOrder := s.c.accessOrder.erase key ++ [key] },
         fun j => if j = key then s.clock else s.stamp j, s.clock + 1⟩ := by
  have horderN : s.c.accessOrder.Nodup := h.orderNodup
  have hmemErase : ∀ a ∈ s.c.accessOrder.erase key, a ≠ key ∧ a ∈ s.c.accessOrder :=
    fun a ha => (horderN.mem_erase_iff).mp ha
  constructor
  · refine (List.nodup_append).mpr ⟨horderN.erase key, List.nodup_singleton key, ?_⟩
    intro a ha hb
    rcases List.mem_singleton.mp hb with rfl
    exact (hmemErase a ha).1 rfl
  · exact hperm
  · refine (List.pairwise_append).mpr ⟨?_, List.pairwise_singleton _ _, ?_⟩
    · have base : (s.c.accessOrder.erase key).Pairwise (fun a b => s.stamp a < s.stamp b) :=
        h.orderSorted.sublist (s.c.accessOrder.erase_sublist key)
      refine base.imp_of_mem ?_
      intro a b ha hb hab
      have hna := (hmemErase a ha).1
      have hnb := (hmemErase b hb).1
      simpa [hna, hnb] using hab
    · intro a ha b hb
      rcases List.mem_singleton.mp hb with rfl
      have hna := (hmemErase a ha).1
      have haorder := (hmemErase a ha).2
      simpa [hna] using h.clockBound a haorder
  · intro j hj
    rcases List.mem_append.mp hj with hj | hj
    · have hnj := (hmemErase j hj).1
      have hlt : s.stamp j < s.clock := h.clockBound j (hmemErase j hj).2
      simp only [if_neg hnj]
      omega
    · rcases List.mem_singleton.mp hj with rfl
      simp

/-- `get` preserves the invariant. -/
theorem Inv.get {α : Type} {s : TCache α} (h : Inv s) (now : Int) (key : String) :
    Inv (TCache.get s now key).2 := by
  cases hl : lookupKey s.c.cache key with
  | none =>
    rw [tget_eq_miss hl]
    exact h
  | some entry =>
    by_cases hexp : now - entry.timestamp > s.c.ttl
    · rw [tget_eq_expired hl hexp]
      constructor
      · exact h.orderNodup.erase key
      · show (keysOf (eraseKey s.c.cache key)).Perm (s.c.accessOrder.erase key)
        rw [keysOf_eraseKey]
        exact h.orderPerm.erase key
      · exact h.orderSorted.sublist (s.c.accessOrder.erase_sublist key)
      · intro j hj
        exact h.clockBound j (List.mem_of_mem_erase hj)
    · rw [tget_eq_hit hl hexp]
      have hkmem : key ∈ keysOf s.c.cache := mem_keysOf_of_lookup hl
      have hkorder : key ∈ s.c.accessOrder := h.orderPerm.mem_iff.mp hkmem
      have hperm : (keysOf s.c.cache).Perm (s.c.accessOrder.erase key ++ [key]) :=
        h.orderPerm.trans ((List.perm_cons_erase hkorder).trans
          (List.perm_append_singleton key _).symm)
      exact h.step_touch key s.c.cache hperm

/-- Eviction preserves the invariant (stamps untouched). -/
theorem Inv.evict {α : Type} {s : TCache α} (h : Inv s) :
    Inv { s with c := FlowCache.evictLRU s.c } := by
  cases horder : s.c.accessOrder with
  | nil =>
    rw [FlowCache.evictLRU_nil horder]
    exact h
  | cons lru rest =>
    rw [FlowCache.evictLRU_cons horder]
    constructor
    · exact (horder ▸ h.orderNodup).of_cons
    · show (keysOf (eraseKey s.c.cache lru)).Perm rest
      rw [keysOf_eraseKey]
      have hp := h.orderPerm.erase lru
      rw [horder] at hp
      simpa [List.erase_cons_head] using hp
    · exact (horder ▸ h.orderSorted).of_cons
    · intro j hj
      exact h.clockBound j (by rw [horder]; exact List.mem_cons_of_mem _ hj)

/-- `set` preserves the invariant. -/
theorem Inv.set {α : Type} {s : TCache α} (h : Inv s) (now : Int) (key : String) (data : α) :
    Inv (TCache.set s now key data) := by
  have h1 : Inv ⟨if s.c.cache.length ≥ s.c.maxSize then FlowCache.evictLRU s.c else s.c,
                 s.stamp, s.clock⟩ := by
    by_cases hful : s.c.cache.length ≥ s.c.maxSize
    · rw [if_pos hful]
      exact h.evict
    · rw [if_neg hful]
      exact h
  have hperm : (keysOf (setKey (if s.c.cache.length ≥ s.c.maxSize then
        FlowCache.evictLRU s.c else s.c).cache key ⟨data, now, 0⟩)).Perm
      ((if s.c.cache.length ≥ s.c.maxSize then
        FlowCache.evictLRU s.c else s.c).accessOrder.erase key ++ [key]) := by
    set c1 := if s.c.cache.length ≥ s.c.maxSize then FlowCache.evictLRU s.c else s.c with hc1
    by_cases hmem : key ∈ keysOf c1.cache
    · rw [keysOf_setKey_mem _ _ _ hmem]
      have hkorder : key ∈ c1.accessOrder := h1.orderPerm.mem_iff.mp hmem
      exact h1.orderPerm.trans ((List.perm_cons_erase hkorder).trans
        (List.perm_append_singleton key _).symm)
    · rw [keysOf_setKey_fresh _ _ _ hmem]
      have hkorder : key ∉ c1.accessOrder := fun hc => hmem (h1.orderPerm.mem_iff.mpr hc)
      rw [List.erase_of_not_mem hkorder]
      exact h1.orderPerm.append_right [key]
  exact h1.step_touch key _ hperm

end TCache

theorem keysOf_length {α : Type} (l : List (String × α)) :
    (keysOf l).length = l.length := List.length_map _ _

theorem FlowCache.set_cache_at_capacity {α : Type} (c : FlowCache α) (now : Int)
    (key : String) (data : α) (lru : String) (rest : List String)
    (hfull : c.cache.length ≥ c.maxSize) (horder : c.accessOrder = lru :: rest) :
    (FlowCache.set c now key data).cache
      = setKey (eraseKey c.cache lru) key ⟨data, now, 0⟩ := by
  simp [FlowCache.set, FlowCache.updateAccessOrder, if_pos hfull,
    FlowCache.evictLRU_cons horder]

/-- C6 (amended): with capacity at least 2, a cache at capacity evicts, on
inserting a fresh key, exactly the least-recently-accessed live key — the one
with the minimal last-access stamp — and every other key survives; in
particular the key just read by `get` is protected. -/
theorem claim_C6_theorem {α : Type} (s : TCache α) (now now2 : Int) (k k' : String)
    (v data : α)
    (hinv : TCache.Inv s)
    (hsize : 2 ≤ s.c.maxSize)
    (hfull : s.c.cache.length = s.c.maxSize)
    (hhit : (TCache.get s now k).1 = some v)
    (hfresh : k' ∉ keysOf s.c.cache) :
    ∃ lru,
      lru ∈ keysOf (TCache.get s now k).2.c.cache ∧
      (∀ j ∈ keysOf (TCache.get s now k).2.c.cache, j ≠ lru →
        (TCache.get s now k).2.stamp lru < (TCache.get s now k).2.stamp j) ∧
      lru ∉ keysOf (TCache.set (TCache.get s now k).2 now2 k' data).c.cache ∧
      (∀ j ∈ keysOf (TCache.get s now k).2.c.cache, j ≠ lru →
        j ∈ keysOf (TCache.set (TCache.get s now k).2 now2 k' data).c.cache) ∧
      lru ≠ k ∧
      k ∈ keysOf (TCache.set (TCache.get s now k).2 now2 k' data).c.cache ∧
      k' ∈ keysOf (TCache.set (TCache.get s now k).2 now2 k' data).c.cache := by
  cases hl : lookupKey s.c.cache k with
  | none =>
    rw [TCache.tget_eq_miss hl] at hhit
    simp at hhit
  | some entry =>
    by_cases hexp : now - entry.timestamp > s.c.ttl
    · rw [TCache.tget_eq_expired hl hexp] at hhit
      simp at hhit
    · have h1 : TCache.Inv (TCache.get s now k).2 := hinv.get now k
      have hgot : TCache.get s now k
          = (some entry.data, { TCache.touch s k with c := s.c.updateAccessOrder k }) :=
        TCache.tget_eq_hit hl hexp
      rw [hgot] at h1 ⊢
      have hcache : ({ TCache.touch s k with
          c := s.c.updateAccessOrder k } : TCache α).c.cache = s.c.cache := rfl
      have horder1 : ({ TCache.touch s k with
          c := s.c.updateAccessOrder k } : TCache α).c.accessOrder
          = s.c.accessOrder.erase k ++ [k] := rfl
      have hkmem : k ∈ keysOf s.c.cache := mem_keysOf_of_lookup hl
      have hkord : k ∈ s.c.accessOrder := hinv.orderPerm.mem_iff.mp hkmem
      have hnodupKeys : (keysOf s.c.cache).Nodup := TCache.keysNodup_of_inv hinv
      have hlenOrder : s.c.accessOrder.length = s.c.maxSize := by
        rw [← hinv.orderPerm.length_eq, keysOf_length, hfull]
      have herase_len : (s.c.accessOrder.erase k).length = s.c.maxSize - 1 := by
        rw [List.length_erase_of_mem hkord, hlenOrder]
      cases herase : s.c.accessOrder.erase k with
      | nil =>
        exfalso
        rw [herase] at herase_len
        simp at herase_len
        omega
      | cons lru t =>
        refine ⟨lru, ?_, ?_, ?_, ?_, ?_, ?_, ?_⟩
        case _ =>
          -- lru is a live key
          refine h1.orderPerm.mem_iff.mpr ?_
          rw [horder1, herase]
          exact List.mem_cons_self _ _
        case _ =>
          -- lru has the minimal last-access stamp among live keys
          intro j hj hne
          have hsort := h1.orderSorted
          rw [horder1, herase] at hsort
          have hj1 := h1.orderPerm.mem_iff.mp hj
          rw [horder1, herase] at hj1
          rcases List.mem_cons.mp hj1 with rfl | hj2
          · exact absurd rfl hne
          · exact (List.pairwise_cons.mp hsort).1 j hj2
        all_goals {
          have hful1 : ({ TCache.touch s k with
              c := s.c.updateAccessOrder k } : TCache α).c.cache.length
              ≥ ({ TCache.touch s k with
              c := s.c.updateAccessOrder k } : TCache α).c.maxSize := by
            rw [hcache]
            show s.c.cache.length ≥ s.c.maxSize
            rw [hfull]
          have horder1' : ({ TCache.touch s k with
              c := s.c.updateAccessOrder k } : TCache α).c.accessOrder
              = lru :: (t ++ [k]) := by
            rw [horder1, herase]
            rfl
          have hsetc : (TCache.set { TCache.touch s k with
              c := s.c.updateAccessOrder k } now2 k' data).c.cache
              = setKey (eraseKey s.c.cache lru) k' ⟨data, now2, 0⟩ := by
            show (FlowCache.set _ now2 k' data).cache = _
            rw [FlowCache.set_cache_at_capacity _ now2 k' data lru (t ++ [k]) hful1 horder1']
            rfl
          have hfresh' : k' ∉ keysOf (eraseKey s.c.cache lru) := by
            rw [keysOf_eraseKey]
            intro hc
            exact hfresh (List.mem_of_mem_erase hc)
          have hkeys2 : keysOf (TCache.set { TCache.touch s k with
              c := s.c.updateAccessOrder k } now2 k' data).c.cache
              = (keysOf s.c.cache).erase lru ++ [k'] := by
            rw [hsetc, keysOf_setKey_fresh _ _ _ hfresh', keysOf_eraseKey]
          have hlru_ne_k : lru ≠ k := by
            have hnd := h1.orderNodup
            rw [horder1'] at hnd
            intro hEq
            subst hEq
            exact (List.nodup_cons.mp hnd).1 (List.mem_append_right t (List.mem_singleton.mpr rfl))
          have hlru_keys : lru ∈ keysOf s.c.cache := by
            refine hinv.orderPerm.mem_iff.mpr ?_
            exact List.mem_of_mem_erase (by rw [herase]; exact List.mem_cons_self _ _)
          first
          | -- lru is evicted
            (rw [hkeys2]
             intro hc
             rcases List.mem_append.mp hc with hc1 | hc2
             · exact absurd hc1 (fun hmem => ((hnodupKeys.mem_erase_iff).mp hmem).1 rfl)
             · rcases List.mem_singleton.mp hc2 with rfl
               exact hfresh hlru_keys)
          | -- every other key survives
            (intro j hj hne
             rw [hkeys2]
             refine List.mem_append_left _ ?_
             exact (hnodupKeys.mem_erase_iff).mpr ⟨hne, by rw [hcache] at hj; exact hj⟩)
          | exact hlru_ne_k
          | -- the key just read survives
            (rw [hkeys2]
             refine List.mem_append_left _ ?_
             exact (hnodupKeys.mem_erase_iff).mpr ⟨fun hc => hlru_ne_k hc.symm, hkmem⟩)
          | -- the fresh key is inserted
            (rw [hkeys2]
             exact List.mem_append_right _ (List.mem_singleton.mpr rfl))
        }

/-- Concrete two-entry cache at capacity: "a" inserted first, "b" accessed
more recently, so "a" is the least-recently-inserted is "a" yet after the
upcoming `get "a"` the least-recently-accessed key is "b". -/
def c6s : TCache Nat :=
  ⟨⟨[("a", ⟨10, 0, 0⟩), ("b", ⟨20, 0, 0⟩)], 2, 1000, ["a", "b"]⟩,
   fun j => if j = "b" then 1 else 0, 2⟩

/-- Witness for C6: reading "a" then inserting the fresh key "c" evicts the
minimal-stamp key and keeps "a" and "c". -/
theorem claim_C6_witness :
    ∃ lru,
      lru ∈ keysOf (TCache.get c6s 5 "a").2.c.cache ∧
      (∀ j ∈ keysOf (TCache.get c6s 5 "a").2.c.cache, j ≠ lru →
        (TCache.get c6s 5 "a").2.stamp lru < (TCache.get c6s 5 "a").2.stamp j) ∧
      lru ∉ keysOf (TCache.set (TCache.get c6s 5 "a").2 6 "c" (99 : Nat)).c.cache ∧
      (∀ j ∈ keysOf (TCache.get c6s 5 "a").2.c.cache, j ≠ lru →
        j ∈ keysOf (TCache.set (TCache.get c6s 5 "a").2 6 "c" (99 : Nat)).c.cache) ∧
      lru ≠ "a" ∧
      "a" ∈ keysOf (TCache.set (TCache.get c6s 5 "a").2 6 "c" (99 : Nat)).c.cache ∧
      "c" ∈ keysOf (TCache.set (TCache.get c6s 5 "a").2 6 "c" (99 : Nat)).c.cache :=
  claim_C6_theorem c6s 5 6 "a" "c" 10 99
    ⟨by decide, by decide, by decide, by decide⟩
    (by decide) (by decide) (by decide) (by decide)

/-- Counterexample for C6 as stated: at capacity 1, a `get` of "a" immediately
before the eviction-triggering `set` does NOT protect "a" — it is evicted
anyway, so the claim's protection clause fails without a capacity ≥ 2 bound. -/
theorem claim_C6_counterexample :
    (FlowCache.get (FlowCache.set (FlowCache.mk0 Nat 1 1000) 0 "a" 7) 1 "a").1 = some 7 ∧
    lookupKey (FlowCache.set
      ((FlowCache.get (FlowCache.set (FlowCache.mk0 Nat 1 1000) 0 "a" 7) 1 "a").2)
      2 "b" 8).cache "a" = none := by decide

/- ## MemoryManager (src MemoryManager.ts)
Running per-contributor resource totals. `updateUsage` replaces a
contributor's usage, warns above `maxMemory * memoryThreshold` (0.8 by
default) and, above `maxMemory`, evicts smallest contributors first until the
total is at most 70% of capacity. Amounts are rationals (JS numbers). -/

structure MemoryManager where
  memoryUsage : List (String × ℚ)
  maxMemory : ℚ
  currentUsage : ℚ
  memoryThreshold : ℚ
deriving DecidableEq, Repr

namespace MemoryManager

/-- Fresh manager; source default capacity is 1 GiB, threshold 0.8. -/
def mk0 (maxMemory : ℚ) : MemoryManager :=
  { memoryUsage := [], maxMemory := maxMemory, currentUsage := 0, memoryThreshold := 4/5 }

def sumVals (l : List (String × ℚ)) : ℚ := (l.map Prod.snd).sum

/-- Ascending insertion by usage value (models the `.sort((a,b) => a-b)`). -/
def insertAsc (p : String × ℚ) : List (String × ℚ) → List (String × ℚ)
  | [] => [p]
  | q :: rest => if p.2 ≤ q.2 then p :: q :: rest else q :: insertAsc p rest

def sortByUsage : List (String × ℚ) → List (String × ℚ)
  | [] => []
  | p :: rest => insertAsc p (sortByUsage rest)

/-- The eviction loop of `cleanupMemory`: walk the ascending-sorted entries,
stop as soon as `currentUsage - freed ≤ limit`, otherwise free the entry.
Returns the total freed and the deleted contributor ids. -/
def cleanupLoop (cur limit : ℚ) : List (String × ℚ) → ℚ → ℚ × List String
  | [], freed => (freed, [])
  | (nodeId, u) :: rest, freed =>
    if cur - freed ≤ limit then (freed, [])
    else
      let r := cleanupLoop cur limit rest (freed + u)
      (r.1, nodeId :: r.2)

def cleanupMemory (m : MemoryManager) : MemoryManager :=
  let sorted := sortByUsage m.memoryUsage
  let r := cleanupLoop m.currentUsage (m.maxMemory * (7/10)) sorted 0
  { m with memoryUsage := r.2.foldl (fun acc nodeId => eraseKey acc nodeId) m.memoryUsage,
           currentUsage := m.currentUsage - r.1 }

/-- `updateUsage`: replace the contributor's usage, then check the warning
threshold and the capacity limit (triggering `cleanupMemory`). The returned
booleans are the emitted `memory:warning` and `memory:critical` events. -/
def updateUsage (m : MemoryManager) (nodeId : String) (usage : ℚ) :
    MemoryManager × Bool × Bool :=
  let previous := (lookupKey m.memoryUsage nodeId).getD 0
  let cur := m.currentUsage - previous + usage
  let m1 : MemoryManager :=
    { m with currentUsage := cur, memoryUsage := setKey m.memoryUsage nodeId usage }
  let warned := decide (cur > m.maxMemory * m.memoryThreshold)
  if cur > m.maxMemory then (cleanupMemory m1, warned, true) else (m1, warned, false)

def getCurrentUsage (m : MemoryManager) : ℚ := m.currentUsage

def getAvailableMemory (m : MemoryManager) : ℚ := m.maxMemory - m.currentUsage

/-- Bookkeeping invariant: distinct contributors and a consistent total. -/
def Inv (m : MemoryManager) : Prop :=
  keysNodup m.memoryUsage ∧ m.currentUsage = sumVals m.memoryUsage

end MemoryManager

namespace MemoryManager

theorem lookupKey_mem {α : Type} {l : List (String × α)} {k : String} {v : α}
    (h : lookupKey l k = some v) : (k, v) ∈ l := by
  induction l with
  | nil => simp [lookupKey] at h
  | cons p rest ih =>
    obtain ⟨k', v'⟩ := p
    by_cases hk : k' = k
    · subst hk
      simp [lookupKey] at h
      simp [h]
    · simp only [lookupKey, if_neg hk] at h
      exact List.mem_cons_of_mem _ (ih h)

theorem insertAsc_perm (p : String × ℚ) (l : List (String × ℚ)) :
    (insertAsc p l).Perm (p :: l) := by
  induction l with
  | nil => simp [insertAsc]
  | cons q rest ih =>
    by_cases h : p.2 ≤ q.2
    · simp [insertAsc, h]
    · simp only [insertAsc, if_neg h]
      exact (ih.cons q).trans (List.Perm.swap p q rest)

theorem sortByUsage_perm (l : List (String × ℚ)) : (sortByUsage l).Perm l := by
  induction l with
  | nil => simp [sortByUsage]
  | cons p rest ih =>
    exact (insertAsc_perm p (sortByUsage rest)).trans (ih.cons p)

theorem insertAsc_sorted (p : String × ℚ) (l : List (String × ℚ))
    (h : l.Pairwise (fun a b => a.2 ≤ b.2)) :
    (insertAsc p l).Pairwise (fun a b => a.2 ≤ b.2) := by
  induction l with
  | nil => simp [insertAsc]
  | cons q rest ih =>
    by_cases hle : p.2 ≤ q.2
    · simp only [insertAsc, if_pos hle]
      refine List.pairwise_cons.mpr ⟨?_, h⟩
      intro b hb
      rcases List.mem_cons.mp hb with rfl | hb2
      · exact hle
      · exact le_trans hle ((List.pairwise_cons.mp h).1 b hb2)
    · simp only [insertAsc, if_neg hle]
      have hq := (List.pairwise_cons.mp h).1
      refine List.pairwise_cons.mpr ⟨?_, ih (List.pairwise_cons.mp h).2⟩
      intro b hb
      rcases List.mem_cons.mp ((insertAsc_perm p rest).mem_iff.mp hb) with rfl | hb2
      · exact le_of_not_le hle
      · exact hq b hb2

theorem sortByUsage_sorted (l : List (String × ℚ)) :
    (sortByUsage l).Pairwise (fun a b => a.2 ≤ b.2) := by
  induction l with
  | nil => simp [sortByUsage]
  | cons p rest ih => exact insertAsc_sorted p (sortByUsage rest) ih

theorem sumVals_perm {l l' : List (String × ℚ)} (h : l.Perm l') :
    sumVals l = sumVals l' := by
  unfold sumVals
  exact (h.map Prod.snd).sum_eq

theorem sumVals_setKey (l : List (String × ℚ)) (k : String) (v : ℚ) :
    sumVals (setKey l k v) = sumVals l - (lookupKey l k).getD 0 + v := by
  induction l with
  | nil => simp [setKey, sumVals, lookupKey]
  | cons p rest ih =>
    obtain ⟨k', v'⟩ := p
    by_cases h : k' = k
    · simp [setKey, h, sumVals, lookupKey]
      ring
    · simp only [setKey, if_neg h, lookupKey, sumVals, List.map_cons, List.sum_cons] at ih ⊢
      rw [ih]
      ring

theorem keysNodup_setKey {α : Type} (l : List (String × α)) (k : String) (v : α)
    (h : keysNodup l) : keysNodup (setKey l k v) := by
  unfold keysNodup at h ⊢
  by_cases hmem : k ∈ keysOf l
  · rw [keysOf_setKey_mem _ _ _ hmem]
    exact h
  · rw [keysOf_setKey_fresh _ _ _ hmem]
    refine (List.nodup_append).mpr ⟨h, List.nodup_singleton k, ?_⟩
    intro a ha hb
    rcases List.mem_singleton.mp hb with rfl
    exact hmem ha

theorem keysNodup_perm {α : Type} {l l' : List (String × α)} (hp : l.Perm l')
    (h : keysNodup l) : keysNodup l' :=
  ((hp.map Prod.fst).nodup_iff).mp h

def keyKeep {α : Type} (k : String) (p : String × α) : Bool :=
  if p.1 = k then false else true

theorem filter_keyKeep_of_not_mem {α : Type} {rest : List (String × α)} {k : String}
    (hk : k ∉ keysOf rest) : rest.filter (keyKeep k) = rest := by
  refine List.filter_eq_self.mpr ?_
  intro p hp
  unfold keyKeep
  rw [if_neg]
  intro hc
  exact hk (hc ▸ List.mem_map_of_mem Prod.fst hp)

theorem eraseKey_eq_filter {α : Type} (l : List (String × α)) (k : String)
    (hnd : keysNodup l) : eraseKey l k = l.filter (keyKeep k) := by
  induction l with
  | nil => simp [eraseKey]
  | cons p rest ih =>
    obtain ⟨k', v'⟩ := p
    have hnd' : keysNodup rest := (List.nodup_cons.mp hnd).2
    have hk'rest : k' ∉ keysOf rest := (List.nodup_cons.mp hnd).1
    by_cases h : k' = k
    · subst h
      rw [List.filter_cons]
      have hfalse : keyKeep k' ((k', v')) = false := by simp [keyKeep]
      rw [hfalse]
      simp only [eraseKey, if_pos rfl, Bool.false_eq_true, if_false]
      exact (filter_keyKeep_of_not_mem hk'rest).symm
    · rw [List.filter_cons]
      have htrue : keyKeep k ((k', v')) = true := by simp [keyKeep, h]
      rw [htrue]
      simp only [eraseKey, if_neg h, if_true]
      rw [ih hnd']

theorem eraseKey_perm_cons {α : Type} {m : List (String × α)} {k : String} {v : α}
    {rest : List (String × α)} (hnd : keysNodup m) (hp : m.Perm ((k, v) :: rest)) :
    (eraseKey m k).Perm rest ∧ keysNodup (eraseKey m k) := by
  have hndc : keysNodup ((k, v) :: rest) := keysNodup_perm hp hnd
  have hkrest : k ∉ keysOf rest := (List.nodup_cons.mp hndc).1
  have hndrest : keysNodup rest := (List.nodup_cons.mp hndc).2
  constructor
  · rw [eraseKey_eq_filter m k hnd]
    have hfil := hp.filter (keyKeep k)
    have hcons : ((k, v) :: rest).filter (keyKeep k) = rest := by
      rw [List.filter_cons]
      have hfalse : keyKeep k ((k, v)) = false := by simp [keyKeep]
      rw [hfalse]
      simp only [Bool.false_eq_true, if_false]
      exact filter_keyKeep_of_not_mem hkrest
    rw [hcons] at hfil
    exact hfil
  · unfold keysNodup
    rw [keysOf_eraseKey]
    exact hnd.erase k

theorem foldl_eraseKey_perm {α : Type} (pfx : List (String × α)) :
    ∀ (m sfx : List (String × α)), keysNodup m → m.Perm (pfx ++ sfx) →
    ((pfx.map Prod.fst).foldl (fun acc nodeId => eraseKey acc nodeId) m).Perm sfx ∧
    keysNodup ((pfx.map Prod.fst).foldl (fun acc nodeId => eraseKey acc nodeId) m) := by
  induction pfx with
  | nil =>
    intro m sfx hnd hp
    simpa using ⟨hp, hnd⟩
  | cons p pfxRest ih =>
    intro m sfx hnd hp
    obtain ⟨k, v⟩ := p
    have hp' : m.Perm ((k, v) :: (pfxRest ++ sfx)) := by simpa using hp
    obtain ⟨hperm1, hnd1⟩ := eraseKey_perm_cons hnd hp'
    have := ih (eraseKey m k) sfx hnd1 hperm1
    simpa using this

theorem cleanupLoop_spec (cur limit : ℚ) :
    ∀ (entries : List (String × ℚ)) (f0 : ℚ),
    ∃ pfx sfx, entries = pfx ++ sfx ∧
      (cleanupLoop cur limit entries f0).2 = pfx.map Prod.fst ∧
      (cleanupLoop cur limit entries f0).1 = f0 + sumVals pfx ∧
      (cur - (cleanupLoop cur limit entries f0).1 ≤ limit ∨ sfx = []) := by
  intro entries
  induction entries with
  | nil =>
    intro f0
    refine ⟨[], [], rfl, rfl, by simp [cleanupLoop, sumVals], Or.inr rfl⟩
  | cons p rest ih =>
    intro f0
    obtain ⟨k, u⟩ := p
    by_cases hstop : cur - f0 ≤ limit
    · have heq : cleanupLoop cur limit ((k, u) :: rest) f0 = (f0, []) := by
        simp only [cleanupLoop, if_pos hstop]
      refine ⟨[], (k, u) :: rest, rfl, ?_, ?_, ?_⟩
      · rw [heq]
        rfl
      · rw [heq]
        simp [sumVals]
      · left
        rw [heq]
        exact hstop
    · have heq : cleanupLoop cur limit ((k, u) :: rest) f0
          = ((cleanupLoop cur limit rest (f0 + u)).1,
             k :: (cleanupLoop cur limit rest (f0 + u)).2) := by
        simp only [cleanupLoop, if_neg hstop]
      obtain ⟨pfx, sfx, hsplit, hids, hfreed, hstop2⟩ := ih (f0 + u)
      refine ⟨(k, u) :: pfx, sfx, by simp [hsplit], ?_, ?_, ?_⟩
      · rw [heq]
        simp only [List.map_cons]
        rw [hids]
      · rw [heq]
        simp only []
        rw [hfreed]
        simp [sumVals]
        ring
      · rcases hstop2 with h | h
        · left
          rw [heq]
          exact h
        · right
          exact h

end MemoryManager

namespace MemoryManager

theorem sumVals_append (a b : List (String × ℚ)) :
    sumVals (a ++ b) = sumVals a + sumVals b := by
  simp [sumVals]

/-- What `cleanupMemory` guarantees on a consistent tracker: the invariant is
kept, the total drops to at most 70% of capacity, and eviction is bottom-up
by usage — every evicted contributor used at most as much as any survivor. -/
theorem cleanupMemory_spec (m : MemoryManager) (hinv : Inv m) (hmax : 0 ≤ m.maxMemory) :
    Inv (cleanupMemory m) ∧
    (cleanupMemory m).currentUsage ≤ m.maxMemory * (7/10) ∧
    (∀ i ui, lookupKey m.memoryUsage i = some ui →
      lookupKey (cleanupMemory m).memoryUsage i = none →
      ∀ j uj, lookupKey (cleanupMemory m).memoryUsage j = some uj → ui ≤ uj) := by
  obtain ⟨pfx, sfx, hsplit, hids, hfreed, hstop⟩ :=
    cleanupLoop_spec m.currentUsage (m.maxMemory * (7/10)) (sortByUsage m.memoryUsage) 0
  have hmu : (cleanupMemory m).memoryUsage
      = (cleanupLoop m.currentUsage (m.maxMemory * (7/10))
          (sortByUsage m.memoryUsage) 0).2.foldl
          (fun acc nodeId => eraseKey acc nodeId) m.memoryUsage := rfl
  have hcu : (cleanupMemory m).currentUsage
      = m.currentUsage - (cleanupLoop m.currentUsage (m.maxMemory * (7/10))
          (sortByUsage m.memoryUsage) 0).1 := rfl
  have hperm0 : m.memoryUsage.Perm (pfx ++ sfx) :=
    hsplit ▸ (sortByUsage_perm m.memoryUsage).symm
  obtain ⟨hMperm, hMnd⟩ := foldl_eraseKey_perm pfx m.memoryUsage sfx hinv.1 hperm0
  rw [hids] at hmu
  have hsum0 : m.currentUsage = sumVals pfx + sumVals sfx := by
    rw [hinv.2, sumVals_perm hperm0, sumVals_append]
  have hcu2 : (cleanupMemory m).currentUsage = sumVals sfx := by
    rw [hcu, hfreed, hsum0]
    ring
  refine ⟨⟨by rw [hmu]; exact hMnd, ?_⟩, ?_, ?_⟩
  · rw [hmu, hcu2]
    exact (sumVals_perm hMperm).symm
  · rcases hstop with h | h
    · rw [hcu]
      exact h
    · rw [hcu2, h]
      have : (0 : ℚ) ≤ m.maxMemory * (7/10) := by
        have h710 : (0 : ℚ) ≤ 7/10 := by norm_num
        exact mul_nonneg hmax h710
      simpa [sumVals] using this
  · intro i ui hi hgone j uj hj
    have hiM : (i, ui) ∈ pfx := by
      have hmem : (i, ui) ∈ pfx ++ sfx := hperm0.mem_iff.mp (lookupKey_mem hi)
      rcases List.mem_append.mp hmem with h | h
      · exact h
      · exfalso
        have : (i, ui) ∈ (cleanupMemory m).memoryUsage := by
          rw [hmu]
          exact hMperm.mem_iff.mpr h
        obtain ⟨w, hw⟩ := lookupKey_isSome_of_mem _ i (List.mem_map_of_mem Prod.fst this)
        rw [hw] at hgone
        exact Option.noConfusion hgone
    have hjM : (j, uj) ∈ sfx := by
      have : (j, uj) ∈ (cleanupMemory m).memoryUsage := lookupKey_mem hj
      rw [hmu] at this
      exact hMperm.mem_iff.mp this
    have hsorted := sortByUsage_sorted m.memoryUsage
    rw [hsplit] at hsorted
    exact (List.pairwise_append.mp hsorted).2.2 (i, ui) hiM (j, uj) hjM

end MemoryManager

namespace MemoryManager

/-- Post-update total of an `updateUsage` call, before any eviction. -/
def postTotal (m : MemoryManager) (nodeId : String) (usage : ℚ) : ℚ :=
  m.currentUsage - (lookupKey m.memoryUsage nodeId).getD 0 + usage

/-- The tracker state right after the replacement write, before threshold
checks. -/
def replaced (m : MemoryManager) (nodeId : String) (usage : ℚ) : MemoryManager :=
  { m with currentUsage := postTotal m nodeId usage,
           memoryUsage := setKey m.memoryUsage nodeId usage }

theorem updateUsage_eq_crit (m : MemoryManager) (nodeId : String) (usage : ℚ)
    (hcrit : postTotal m nodeId usage > m.maxMemory) :
    updateUsage m nodeId usage
      = (cleanupMemory (replaced m nodeId usage),
         decide (postTotal m nodeId usage > m.maxMemory * m.memoryThreshold), true) := by
  unfold updateUsage postTotal replaced
  unfold postTotal at hcrit
  rw [if_pos hcrit]
  rfl

theorem updateUsage_eq_ok (m : MemoryManager) (nodeId : String) (usage : ℚ)
    (hok : ¬ postTotal m nodeId usage > m.maxMemory) :
    updateUsage m nodeId usage
      = (replaced m nodeId usage,
         decide (postTotal m nodeId usage > m.maxMemory * m.memoryThreshold), false) := by
  unfold updateUsage postTotal replaced
  unfold postTotal at hok
  rw [if_neg hok]
  rfl

theorem replaced_inv (m : MemoryManager) (nodeId : String) (usage : ℚ)
    (hinv : Inv m) : Inv (replaced m nodeId usage) := by
  refine ⟨keysNodup_setKey _ _ _ hinv.1, ?_⟩
  show postTotal m nodeId usage = sumVals (setKey m.memoryUsage nodeId usage)
  rw [sumVals_setKey, ← hinv.2]
  rfl

end MemoryManager

/-- C7: after every updateUsage call on a consistent tracker, the warning is
emitted exactly when the post-update total exceeds capacity times the warn
threshold (`memoryThreshold`, 0.8 by default); when the post-update total
exceeds capacity, reactive eviction removes smallest-usage contributors first
(every evicted contributor used at most as much as any survivor) and drives
the total to at most 0.7 * capacity; hence the call never ends with the total
above capacity. -/
theorem claim_C7_theorem (m : MemoryManager) (nodeId : String) (usage : ℚ)
    (hinv : MemoryManager.Inv m) (hmax : 0 ≤ m.maxMemory) :
    ((MemoryManager.updateUsage m nodeId usage).2.1 = true ↔
      MemoryManager.postTotal m nodeId usage > m.maxMemory * m.memoryThreshold) ∧
    ((MemoryManager.updateUsage m nodeId usage).2.2 = true ↔
      MemoryManager.postTotal m nodeId usage > m.maxMemory) ∧
    (MemoryManager.postTotal m nodeId usage > m.maxMemory →
      (MemoryManager.updateUsage m nodeId usage).1.currentUsage ≤ m.maxMemory * (7/10) ∧
      (∀ i ui, lookupKey (setKey m.memoryUsage nodeId usage) i = some ui →
        lookupKey (MemoryManager.updateUsage m nodeId usage).1.memoryUsage i = none →
        ∀ j uj,
          lookupKey (MemoryManager.updateUsage m nodeId usage).1.memoryUsage j = some uj →
          ui ≤ uj)) ∧
    (MemoryManager.updateUsage m nodeId usage).1.currentUsage ≤ m.maxMemory ∧
    MemoryManager.Inv (MemoryManager.updateUsage m nodeId usage).1 := by
  have h710 : m.maxMemory * (7/10) ≤ m.maxMemory := by nlinarith
  have hinv1 := MemoryManager.replaced_inv m nodeId usage hinv
  by_cases hcrit : MemoryManager.postTotal m nodeId usage > m.maxMemory
  · rw [MemoryManager.updateUsage_eq_crit m nodeId usage hcrit]
    obtain ⟨hspecInv, hspecLe, hspecAsc⟩ :=
      MemoryManager.cleanupMemory_spec (MemoryManager.replaced m nodeId usage) hinv1 hmax
    exact ⟨by simp, ⟨fun _ => hcrit, fun _ => rfl⟩,
      fun _ => ⟨hspecLe, fun i ui hi hgone j uj hj => hspecAsc i ui hi hgone j uj hj⟩,
      le_trans hspecLe h710, hspecInv⟩
  · rw [MemoryManager.updateUsage_eq_ok m nodeId usage hcrit]
    refine ⟨by simp, ?_, fun hc => absurd hc hcrit, le_of_not_lt hcrit, hinv1⟩
    constructor
    · intro hc
      simp at hc
    · intro hc
      exact absurd hc hcrit

/-- Witness for C7 at a concrete tracker: capacity 10, contributor "b" at 2,
then updateUsage("a", 20) pushes the total to 22, past both thresholds. -/
theorem claim_C7_witness :
    ((MemoryManager.updateUsage ⟨[("b", 2)], 10, 2, 4/5⟩ "a" 20).2.1 = true ↔
      MemoryManager.postTotal ⟨[("b", 2)], 10, 2, 4/5⟩ "a" 20 > 10 * (4/5)) ∧
    ((MemoryManager.updateUsage ⟨[("b", 2)], 10, 2, 4/5⟩ "a" 20).2.2 = true ↔
      MemoryManager.postTotal ⟨[("b", 2)], 10, 2, 4/5⟩ "a" 20 > 10) ∧
    (MemoryManager.postTotal ⟨[("b", 2)], 10, 2, 4/5⟩ "a" 20 > 10 →
      (MemoryManager.updateUsage ⟨[("b", 2)], 10, 2, 4/5⟩ "a" 20).1.currentUsage
        ≤ 10 * (7/10) ∧
      (∀ i ui, lookupKey (setKey [("b", 2)] "a" 20) i = some ui →
        lookupKey (MemoryManager.updateUsage
          ⟨[("b", 2)], 10, 2, 4/5⟩ "a" 20).1.memoryUsage i = none →
        ∀ j uj, lookupKey (MemoryManager.updateUsage
          ⟨[("b", 2)], 10, 2, 4/5⟩ "a" 20).1.memoryUsage j = some uj → ui ≤ uj)) ∧
    (MemoryManager.updateUsage ⟨[("b", 2)], 10, 2, 4/5⟩ "a" 20).1.currentUsage ≤ 10 ∧
    MemoryManager.Inv (MemoryManager.updateUsage ⟨[("b", 2)], 10, 2, 4/5⟩ "a" 20).1 :=
  claim_C7_theorem ⟨[("b", 2)], 10, 2, 4/5⟩ "a" 20
    ⟨by unfold keysNodup; decide, by simp [MemoryManager.sumVals]⟩ (by norm_num)

/-- C8 (amended): provided neither call triggers reactive eviction — the
updated total stays within capacity both times — updateUsage(id, X) followed
by updateUsage(id, Y) leaves id's recorded contribution equal to Y and moves
the total by exactly Y − X relative to the state after the first call. -/
theorem claim_C8_theorem (m : MemoryManager) (nodeId : String) (X Y : ℚ)
    (h1 : ¬ MemoryManager.postTotal m nodeId X > m.maxMemory)
    (h2 : ¬ MemoryManager.postTotal (MemoryManager.replaced m nodeId X) nodeId Y
            > m.maxMemory) :
    lookupKey ((MemoryManager.updateUsage
        (MemoryManager.updateUsage m nodeId X).1 nodeId Y).1).memoryUsage nodeId
      = some Y ∧
    ((MemoryManager.updateUsage (MemoryManager.updateUsage m nodeId X).1 nodeId Y).1).currentUsage
      = ((MemoryManager.updateUsage m nodeId X).1).currentUsage + (Y - X) := by
  rw [MemoryManager.updateUsage_eq_ok m nodeId X h1]
  simp only []
  rw [MemoryManager.updateUsage_eq_ok _ nodeId Y h2]
  constructor
  · show lookupKey (setKey (setKey m.memoryUsage nodeId X) nodeId Y) nodeId = some Y
    exact lookupKey_setKey_self _ _ _
  · show MemoryManager.postTotal (MemoryManager.replaced m nodeId X) nodeId Y
      = MemoryManager.postTotal m nodeId X + (Y - X)
    unfold MemoryManager.postTotal MemoryManager.replaced
    simp only [MemoryManager.postTotal]
    rw [lookupKey_setKey_self]
    simp only [Option.getD_some]
    ring

/-- Witness for C8: capacity 10, updateUsage("a",1) then updateUsage("a",2):
contribution is 2 and the total moves by exactly 2 − 1. -/
theorem claim_C8_witness :
    lookupKey ((MemoryManager.updateUsage
        (MemoryManager.updateUsage ⟨[], 10, 0, 4/5⟩ "a" 1).1 "a" 2).1).memoryUsage "a"
      = some 2 ∧
    ((MemoryManager.updateUsage
        (MemoryManager.updateUsage ⟨[], 10, 0, 4/5⟩ "a" 1).1 "a" 2).1).currentUsage
      = ((MemoryManager.updateUsage ⟨[], 10, 0, 4/5⟩ "a" 1).1).currentUsage + (2 - 1) :=
  claim_C8_theorem ⟨[], 10, 0, 4/5⟩ "a" 1 2
    (by norm_num [MemoryManager.postTotal, lookupKey])
    (by norm_num [MemoryManager.postTotal, MemoryManager.replaced, lookupKey, setKey])

/-- Counterexample for C8 as stated: capacity 10, updateUsage("a",1) then
updateUsage("a",20): the second call trips reactive eviction, which deletes
"a" itself, so the recorded contribution is 0 (not Y = 20) and the net delta
is −1 (not Y − X = 19). -/
theorem claim_C8_counterexample :
    lookupKey ((MemoryManager.updateUsage
        (MemoryManager.updateUsage ⟨[], 10, 0, 4/5⟩ "a" 1).1 "a" 20).1).memoryUsage "a"
      = none ∧
    ((MemoryManager.updateUsage
        (MemoryManager.updateUsage ⟨[], 10, 0, 4/5⟩ "a" 1).1 "a" 20).1).currentUsage
      - ((MemoryManager.updateUsage ⟨[], 10, 0, 4/5⟩ "a" 1).1).currentUsage = -1 ∧
    ¬ (lookupKey ((MemoryManager.updateUsage
          (MemoryManager.updateUsage ⟨[], 10, 0, 4/5⟩ "a" 1).1 "a" 20).1).memoryUsage "a"
        = some 20 ∧
       ((MemoryManager.updateUsage
          (MemoryManager.updateUsage ⟨[], 10, 0, 4/5⟩ "a" 1).1 "a" 20).1).currentUsage
        - ((MemoryManager.updateUsage ⟨[], 10, 0, 4/5⟩ "a" 1).1).currentUsage = 20 - 1) := by
  have h1 : (MemoryManager.updateUsage ⟨[], 10, 0, 4/5⟩ "a" 1).1
      = (⟨[("a", 1)], 10, 1, 4/5⟩ : MemoryManager) := by
    rw [MemoryManager.updateUsage_eq_ok _ _ _
      (by norm_num [MemoryManager.postTotal, lookupKey])]
    norm_num [MemoryManager.replaced, MemoryManager.postTotal, setKey, lookupKey,
      MemoryManager.mk.injEq]
  have h2 : (MemoryManager.updateUsage (⟨[("a", 1)], 10, 1, 4/5⟩ : MemoryManager) "a" 20).1
      = (⟨[], 10, 0, 4/5⟩ : MemoryManager) := by
    rw [MemoryManager.updateUsage_eq_crit _ _ _
      (by norm_num [MemoryManager.postTotal, lookupKey])]
    norm_num [MemoryManager.replaced, MemoryManager.postTotal, MemoryManager.cleanupMemory,
      MemoryManager.sortByUsage, MemoryManager.insertAsc, MemoryManager.cleanupLoop,
      setKey, lookupKey, eraseKey, MemoryManager.mk.injEq]
  rw [h1, h2]
  norm_num [lookupKey]

/- ## TaskExecutor (src TaskExecutor.ts)
Dispatches a node to the handler registered for its type. Handlers are the
pluggable adapters (the built-ins plus `registerHandler` overrides); a
handler either returns an output object or throws a message. Both the
missing-handler throw and a handler throw are caught by the surrounding
try/catch and re-thrown wrapped with the node id. -/

structure FlowNode where
  id : String
  type : String
  label : String
  config : Vars
deriving DecidableEq, Repr

structure FlowContext where
  executionId : String
  flowId : String
  nodeId : String
  «variables» : Vars
  input : Vars
  config : Vars
  memory : ℚ
deriving DecidableEq, Repr

structure ExecResult where
  output : Vars
  executionTime : Int
  memoryUsage : Nat
deriving DecidableEq, Repr

abbrev Handler : Type := FlowContext → Except String Vars

namespace TaskExecutor

/-- Serialized-size cost heuristic (2 bytes per character); the source takes
the node although only the result size is used. -/
def estimateMemoryUsage (_node : FlowNode) (result : Vars) : Nat :=
  2 * (serializeVars result).length

def registerHandler (handlers : List (String × Handler)) (nodeType : String)
    (handler : Handler) : List (String × Handler) :=
  setKey handlers nodeType handler

/-- `execute`: look up the handler for `node.type` (throwing when absent),
run it, and measure time and memory; any throw — including the
missing-handler throw — is wrapped as `Node execution failed: <id> - <msg>`. -/
def execute (handlers : List (String × Handler)) (node : FlowNode)
    (ctx : FlowContext) : Except String ExecResult :=
  match lookupKey handlers node.type with
  | none =>
    Except.error ("Node execution failed: " ++ node.id ++ " - "
      ++ ("No handler found for node type: " ++ node.type))
  | some handler =>
    match handler ctx with
    | Except.error msg =>
      Except.error ("Node execution failed: " ++ node.id ++ " - " ++ msg)
    | Except.ok result =>
      Except.ok { output := result, executionTime := 0,
                  memoryUsage := estimateMemoryUsage node result }

end TaskExecutor

/-- C9 (amended): both failure cases of `execute` surface as one and the same
wrapped error kind annotated with the node id — a missing handler yields the
wrapped message `No handler found for node type: <type>`, and a handler throw
yields its message wrapped identically; the two cases are NOT distinct error
kinds (they are distinguishable only by message text, which a handler can
forge). -/
theorem claim_C9_theorem (handlers : List (String × Handler)) (node : FlowNode)
    (ctx : FlowContext) :
    (lookupKey handlers node.type = none →
      TaskExecutor.execute handlers node ctx
        = Except.error ("Node execution failed: " ++ node.id ++ " - "
            ++ ("No handler found for node type: " ++ node.type))) ∧
    (∀ h msg, lookupKey handlers node.type = some h → h ctx = Except.error msg →
      TaskExecutor.execute handlers node ctx
        = Except.error ("Node execution failed: " ++ node.id ++ " - " ++ msg)) := by
  constructor
  · intro hnone
    simp [TaskExecutor.execute, hnone]
  · intro h msg hsome hthrow
    simp [TaskExecutor.execute, hsome, hthrow]

/-- Counterexample for C9 as stated: an unregistered node type "u" and a
registered handler that throws the forged message produce the *identical*
error value, so the two failure kinds are not distinct and not
distinguishable by the caller. -/
theorem claim_C9_counterexample :
    TaskExecutor.execute [] ⟨"n", "u", "", []⟩ ⟨"e", "f", "n", [], [], [], 0⟩
      = Except.error "Node execution failed: n - No handler found for node type: u" ∧
    TaskExecutor.execute
        [("t", fun _ => Except.error "No handler found for node type: u")]
        ⟨"n", "t", "", []⟩ ⟨"e", "f", "n", [], [], [], 0⟩
      = Except.error "Node execution failed: n - No handler found for node type: u" :=
  ⟨rfl, rfl⟩

/-- Witness for C9: the amended theorem applied to both concrete failure
shapes. -/
theorem claim_C9_witness :
    TaskExecutor.execute [] ⟨"m", "w", "", []⟩ ⟨"e", "f", "m", [], [], [], 0⟩
      = Except.error ("Node execution failed: " ++ "m" ++ " - "
          ++ ("No handler found for node type: " ++ "w")) ∧
    TaskExecutor.execute [("t", fun _ => Except.error "boom")]
        ⟨"m", "t", "", []⟩ ⟨"e", "f", "m", [], [], [], 0⟩
      = Except.error ("Node execution failed: " ++ "m" ++ " - " ++ "boom") :=
  ⟨(claim_C9_theorem [] ⟨"m", "w", "", []⟩ ⟨"e", "f", "m", [], [], [], 0⟩).1 rfl,
   (claim_C9_theorem [("t", fun _ => Except.error "boom")] ⟨"m", "t", "", []⟩
      ⟨"e", "f", "m", [], [], [], 0⟩).2 _ "boom" rfl rfl⟩

/- ## FlowEngine (src FlowEngine.ts)
Registers flow definitions, consults the result cache keyed by
`flowId + serialize(input)`, traverses a flow graph node by node via the
single outgoing edge per source, merges outputs into instance variables and
reports costs to the MemoryManager. The engine is parameterized by the
handler registry and by the JS expression evaluator for edge conditions
(`evalCond c vars = none` models the dynamically-built function throwing).
Mutable engine state is threaded explicitly; `uuid` values and `Date.now()`
readings are arguments. Traversal carries fuel: `none` models a
non-terminating `while` loop (cyclic graphs). -/

structure FlowEdge where
  id : String
  source : String
  target : String
  condition : Option String
deriving DecidableEq, Repr

structure FlowDefinition where
  id : String
  name : String
  startNode : String
  nodes : List FlowNode
  edges : List FlowEdge
deriving DecidableEq, Repr

inductive FlowStatus : Type where
  | pending | running | completed | failed | cancelled
deriving DecidableEq, Repr

/-- The TS interface also carries a `context` bag; it is write-only in the
engine and omitted here. -/
structure FlowInstance where
  id : String
  flowId : String
  status : FlowStatus
  startTime : Int
  input : Vars
  currentNode : String
  «variables» : Vars
  memoryUsage : ℚ
deriving DecidableEq, Repr

structure FlowPerformance where
  nodesExecuted : Nat
  memoryPeak : ℚ
  cacheHits : Nat
  cacheMisses : Nat
deriving DecidableEq, Repr

structure NodeRunResult where
  nodeId : String
  type : String
  output : Vars
  memoryUsage : Nat
  executionTime : Int
deriving DecidableEq, Repr

structure FlowResult where
  id : String
  flowId : String
  status : FlowStatus
  startTime : Int
  endTime : Int
  executionTime : Int
  executionPath : List String
  results : List NodeRunResult
  output : Vars
  memoryUsage : ℚ
  performance : FlowPerformance
deriving DecidableEq, Repr

structure FlowEnv : Type where
  handlers : List (String × Handler)
  evalCond : String → Vars → Option Bool

structure EngineMetrics where
  totalExecutions : Nat
  successfulExecutions : Nat
  failedExecutions : Nat
  averageExecutionTime : ℚ
  memoryUsage : ℚ
deriving DecidableEq, Repr

/-- `cacheHitEvents` counts the cache-hit records emitted on the hit path
(`monitor.logCacheHit` / the `cache:hit` event). -/
structure EngineState where
  flowDefinitions : List (String × FlowDefinition)
  activeFlows : List (String × FlowInstance)
  cache : FlowCache FlowResult
  mem : MemoryManager
  metrics : EngineMetrics
  cacheHitEvents : Nat
deriving DecidableEq, Repr

namespace FlowEngine

def evaluateCondition (env : FlowEnv) (condition : String) (vars : Vars) : Bool :=
  (env.evalCond condition vars).getD false

def generateCacheKey (flowId : String) (input : Vars) : String :=
  flowId ++ ":" ++ serializeVars input

def registerFlow (s : EngineState) (definition : FlowDefinition) : EngineState :=
  { s with flowDefinitions := setKey s.flowDefinitions definition.id definition }

def createNodeContext (mem : MemoryManager) (inst : FlowInstance) (node : FlowNode) :
    FlowContext :=
  { executionId := inst.id, flowId := inst.flowId, nodeId := node.id,
    «variables» := inst.variables, input := inst.input, config := node.config,
    memory := mem.getAvailableMemory }

def executeNode (env : FlowEnv) (mem : MemoryManager) (node : FlowNode)
    (ctx : FlowContext) : Except String (NodeRunResult × MemoryManager) :=
  match TaskExecutor.execute env.handlers node ctx with
  | Except.error e => Except.error e
  | Except.ok r =>
    Except.ok ({ nodeId := node.id, type := node.type, output := r.output,
                 memoryUsage := r.memoryUsage, executionTime := r.executionTime },
               (MemoryManager.updateUsage mem node.id (r.memoryUsage : ℚ)).1)

/-- `new Map(pairs)`: later pairs overwrite earlier ones. -/
def mapFromPairs {β : Type} (pairs : List (String × β)) : List (String × β) :=
  pairs.foldl (fun m kv => setKey m kv.1 kv.2) []

/-- JS string truthiness of the next `currentNode` (`edge?.target || null`). -/
def truthy (sId : String) : Option String :=
  if sId = "" then none else some sId

structure LoopOut where
  err : Option String
  inst : FlowInstance
  mem : MemoryManager
  path : List String
  results : List NodeRunResult
deriving DecidableEq, Repr

/-- The `while (currentNode)` traversal of `executeFlowInstance`. -/
def flowLoop (env : FlowEnv) (nodes : List (String × FlowNode))
    (edges : List (String × FlowEdge)) :
    Option String → FlowInstance → MemoryManager → List String →
    List NodeRunResult → Nat → Option LoopOut
  | none, inst, mem, path, results, _ =>
    some ⟨none, inst, mem, path, results⟩
  | some _, _, _, _, _, 0 => none
  | some cur, inst, mem, path, results, fuel + 1 =>
    match lookupKey nodes cur with
    | none => some ⟨some ("Node not found: " ++ cur), inst, mem, path, results⟩
    | some node =>
      match executeNode env mem node (createNodeContext mem inst node) with
      | Except.error e => some ⟨some e, inst, mem, path, results⟩
      | Except.ok (nodeResult, mem') =>
        let results' := results ++ [nodeResult]
        let path' := path ++ [cur]
        let inst' := { inst with «variables» := mergeVars inst.variables nodeResult.output,
                                 currentNode := cur }
        match lookupKey edges cur with
        | some edge =>
          match edge.condition with
          | some c =>
            if evaluateCondition env c inst'.variables then
              flowLoop env nodes edges (truthy edge.target) inst' mem' path' results' fuel
            else
              some ⟨none, inst', mem', path', results'⟩
          | none =>
            flowLoop env nodes edges (truthy edge.target) inst' mem' path' results' fuel
        | none =>
          flowLoop env nodes edges none inst' mem' path' results' fuel

def executeFlowInstance (env : FlowEnv) (definition : FlowDefinition)
    (inst : FlowInstance) (mem : MemoryManager) (endTime : Int) (fuel : Nat) :
    Option (Except (String × FlowInstance × MemoryManager)
            (FlowResult × FlowInstance × MemoryManager)) :=
  let nodes := mapFromPairs (definition.nodes.map (fun n => (n.id, n)))
  let edges := mapFromPairs (definition.edges.map (fun e => (e.source, e)))
  match flowLoop env nodes edges (truthy definition.startNode) inst mem [] [] fuel with
  | none => none
  | some out =>
    match out.err with
    | some e => some (Except.error (e, out.inst, out.mem))
    | none =>
      some (Except.ok
        ({ id := inst.id, flowId := inst.flowId, status := FlowStatus.completed,
           startTime := inst.startTime, endTime := endTime,
           executionTime := endTime - inst.startTime,
           executionPath := out.path, results := out.results,
           output := out.inst.variables,
           memoryUsage := out.mem.getCurrentUsage,
           performance := { nodesExecuted := out.path.length,
                            memoryPeak := out.mem.getCurrentUsage,
                            cacheHits := 0, cacheMisses := 1 } },
         out.inst, out.mem))

def updateMetrics (metrics : EngineMetrics) (result : FlowResult) (memUsage : ℚ) :
    EngineMetrics :=
  let total := metrics.totalExecutions + 1
  { metrics with
    totalExecutions := total,
    successfulExecutions := metrics.successfulExecutions + 1,
    averageExecutionTime :=
      (metrics.averageExecutionTime * ((total : ℚ) - 1) + (result.executionTime : ℚ))
        / (total : ℚ),
    memoryUsage := memUsage }

def mkInstance (flowId : String) (input : Vars) (executionId : String) (now : Int)
    (startNode : String) : FlowInstance :=
  { id := executionId, flowId := flowId, status := FlowStatus.running, startTime := now,
    input := input, currentNode := startNode, «variables» := input, memoryUsage := 0 }

/-- `executeFlow`: cache lookup, then either the hit path (return the cached
FlowResult, record a cache hit) or the miss path (create and register the
instance, traverse, cache the result and deregister on success; on a step
error the catch block just counts the failure and rethrows — the instance is
left in `activeFlows`, still `running`). -/
def executeFlow (env : FlowEnv) (s : EngineState) (flowId : String) (input : Vars)
    (executionId : String) (now : Int) (fuel : Nat) :
    Option (Except String FlowResult × EngineState) :=
  match lookupKey s.flowDefinitions flowId with
  | none =>
    some (Except.error ("Flow not found: " ++ flowId),
          { s with metrics :=
              { s.metrics with failedExecutions := s.metrics.failedExecutions + 1 } })
  | some definition =>
    match (FlowCache.get s.cache now (generateCacheKey flowId input)).1 with
    | some cachedResult =>
      some (Except.ok cachedResult,
            { s with cache := (FlowCache.get s.cache now (generateCacheKey flowId input)).2,
                     cacheHitEvents := s.cacheHitEvents + 1 })
    | none =>
      let cache1 := (FlowCache.get s.cache now (generateCacheKey flowId input)).2
      let inst := mkInstance flowId input executionId now definition.startNode
      match executeFlowInstance env definition inst s.mem now fuel with
      | none => none
      | some (Except.error (e, inst', mem')) =>
        some (Except.error e,
              { s with cache := cache1,
                       activeFlows := setKey (setKey s.activeFlows executionId inst)
                         executionId inst',
                       mem := mem',
                       metrics := { s.metrics with
                         failedExecutions := s.metrics.failedExecutions + 1 } })
      | some (Except.ok (result, _, mem')) =>
        some (Except.ok result,
              { s with cache := FlowCache.set cache1 now (generateCacheKey flowId input)
                         result,
                       activeFlows := eraseKey (setKey s.activeFlows executionId inst)
                         executionId,
                       mem := mem',
                       metrics := updateMetrics s.metrics result mem'.getCurrentUsage })

end FlowEngine

namespace FlowEngine

/-- Traversal never touches the instance's status field. -/
theorem flowLoop_status (env : FlowEnv) (nodes : List (String × FlowNode))
    (edges : List (String × FlowEdge)) :
    ∀ (fuel : Nat) (cur : Option String) (inst : FlowInstance) (mem : MemoryManager)
      (path : List String) (results : List NodeRunResult) (out : LoopOut),
    flowLoop env nodes edges cur inst mem path results fuel = some out →
    out.inst.status = inst.status := by
  intro fuel
  induction fuel with
  | zero =>
    intro cur inst mem path results out h
    cases cur with
    | none =>
      simp only [flowLoop, Option.some.injEq] at h
      subst h
      rfl
    | some c => simp [flowLoop] at h
  | succ fuel ih =>
    intro cur inst mem path results out h
    cases cur with
    | none =>
      simp only [flowLoop, Option.some.injEq] at h
      subst h
      rfl
    | some c =>
      simp only [flowLoop] at h
      split at h
      · simp only [Option.some.injEq] at h
        subst h
        rfl
      · split at h
        · simp only [Option.some.injEq] at h
          subst h
          rfl
        · split at h
          · split at h
            · split at h
              · have hh := ih _ _ _ _ _ _ h
                exact hh
              · simp only [Option.some.injEq] at h
                subst h
                rfl
            · have hh := ih _ _ _ _ _ _ h
              exact hh
          · -- no outgoing edge: the tail call at `none` has already reduced
            simp only [flowLoop, Option.some.injEq] at h
            subst h
            rfl

end FlowEngine

/-- C2 (amended): when a step throws during traversal, executeFlow
propagates the error to the caller and returns no FlowResult and counts the
failed execution — but the instance is neither marked failed nor removed
from the active set: it stays registered under its execution id with status
still `running`. -/
theorem claim_C2_theorem (env : FlowEnv) (s : EngineState) (flowId : String)
    (input : Vars) (executionId : String) (now : Int) (fuel : Nat)
    (definition : FlowDefinition) (e : String) (inst1 : FlowInstance)
    (mem1 : MemoryManager)
    (hdef : lookupKey s.flowDefinitions flowId = some definition)
    (hmiss : (FlowCache.get s.cache now (FlowEngine.generateCacheKey flowId input)).1
      = none)
    (hfail : FlowEngine.executeFlowInstance env definition
        (FlowEngine.mkInstance flowId input executionId now definition.startNode)
        s.mem now fuel = some (Except.error (e, inst1, mem1))) :
    ∃ s', FlowEngine.executeFlow env s flowId input executionId now fuel
        = some (Except.error e, s') ∧
      lookupKey s'.activeFlows executionId = some inst1 ∧
      inst1.status = FlowStatus.running := by
  have hstatus : inst1.status = FlowStatus.running := by
    simp only [FlowEngine.executeFlowInstance] at hfail
    cases hloop : FlowEngine.flowLoop env
        (FlowEngine.mapFromPairs (definition.nodes.map (fun n => (n.id, n))))
        (FlowEngine.mapFromPairs (definition.edges.map (fun e => (e.source, e))))
        (FlowEngine.truthy definition.startNode)
        (FlowEngine.mkInstance flowId input executionId now definition.startNode)
        s.mem [] [] fuel with
    | none =>
      rw [hloop] at hfail
      simp at hfail
    | some out =>
      rw [hloop] at hfail
      cases hout : out.err with
      | none =>
        simp [hout] at hfail
      | some e' =>
        simp only [Option.some.injEq, hout, Except.error.injEq, Prod.mk.injEq] at hfail
        have hst := FlowEngine.flowLoop_status env _ _ fuel _ _ _ _ _ out hloop
        rw [← hfail.2.1, hst]
        rfl
  refine ⟨{ s with
      cache := (FlowCache.get s.cache now (FlowEngine.generateCacheKey flowId input)).2,
      activeFlows := setKey (setKey s.activeFlows executionId
        (FlowEngine.mkInstance flowId input executionId now definition.startNode))
        executionId inst1,
      mem := mem1,
      metrics := { s.metrics with
        failedExecutions := s.metrics.failedExecutions + 1 } }, ?_, ?_, hstatus⟩
  · simp [FlowEngine.executeFlow, hdef, hmiss, hfail]
  · exact lookupKey_setKey_self _ _ _

/-- One-node flow whose node type has no registered handler, so its single
step throws. -/
def c2env : FlowEnv := ⟨[], fun _ _ => none⟩

def c2def : FlowDefinition := ⟨"f", "F", "n", [⟨"n", "t", "", []⟩], []⟩

def c2s : EngineState :=
  FlowEngine.registerFlow ⟨[], [], FlowCache.mk0 FlowResult 1000 300000,
    MemoryManager.mk0 1073741824, ⟨0, 0, 0, 0, 0⟩, 0⟩ c2def

/-- Counterexample for C2 as stated: the step error is propagated, but the
instance is still in the active set afterwards and its status is `running`,
not `failed` — the claimed cleanup never happens. -/
theorem claim_C2_counterexample :
    ∃ s', FlowEngine.executeFlow c2env c2s "f" [] "e1" 0 5
        = some (Except.error
            "Node execution failed: n - No handler found for node type: t", s') ∧
      ∃ i, lookupKey s'.activeFlows "e1" = some i ∧ i.status = FlowStatus.running :=
  ⟨_, rfl, _, rfl, rfl⟩

/-- Witness for C2's amended theorem at the concrete one-node flow. -/
theorem claim_C2_witness :
    ∃ s', FlowEngine.executeFlow c2env c2s "f" [] "e1" 0 5
        = some (Except.error
            "Node execution failed: n - No handler found for node type: t", s') ∧
      lookupKey s'.activeFlows "e1"
        = some (FlowEngine.mkInstance "f" [] "e1" 0 "n") ∧
      (FlowEngine.mkInstance "f" [] "e1" 0 "n").status = FlowStatus.running :=
  claim_C2_theorem c2env c2s "f" [] "e1" 0 5 c2def
    "Node execution failed: n - No handler found for node type: t"
    (FlowEngine.mkInstance "f" [] "e1" 0 "n")
    (MemoryManager.mk0 1073741824) rfl rfl rfl

/-- C10: a throwing edge condition is caught and treated as false, so
traversal breaks at the current node: whenever the traversal reaches a node
whose outgoing edge's condition string throws (`evalCond … = none`), the
loop ends successfully right there with the partial path, and on the cache
miss path `executeFlow` consequently returns a FlowResult with status
`completed` whose `executionPath` is that partial path — a broken edge
condition never fails the flow. -/
theorem claim_C10_theorem :
    (∀ (env : FlowEnv) (nodes : List (String × FlowNode))
       (edges : List (String × FlowEdge)) (fuel : Nat) (cur : String)
       (inst : FlowInstance) (mem : MemoryManager) (path : List String)
       (results : List NodeRunResult) (node : FlowNode) (nodeResult : NodeRunResult)
       (mem' : MemoryManager) (edge : FlowEdge) (c : String),
      lookupKey nodes cur = some node →
      FlowEngine.executeNode env mem node (FlowEngine.createNodeContext mem inst node)
        = Except.ok (nodeResult, mem') →
      lookupKey edges cur = some edge →
      edge.condition = some c →
      env.evalCond c (mergeVars inst.variables nodeResult.output) = none →
      FlowEngine.flowLoop env nodes edges (some cur) inst mem path results (fuel + 1)
        = some ⟨none,
            { inst with «variables» := mergeVars inst.variables nodeResult.output,
                        currentNode := cur },
            mem', path ++ [cur], results ++ [nodeResult]⟩) ∧
    (∀ (env : FlowEnv) (s : EngineState) (flowId : String) (input : Vars)
       (executionId : String) (now : Int) (fuel : Nat)
       (definition : FlowDefinition) (out : FlowEngine.LoopOut),
      lookupKey s.flowDefinitions flowId = some definition →
      (FlowCache.get s.cache now (FlowEngine.generateCacheKey flowId input)).1 = none →
      FlowEngine.flowLoop env
        (FlowEngine.mapFromPairs (definition.nodes.map (fun n => (n.id, n))))
        (FlowEngine.mapFromPairs (definition.edges.map (fun e => (e.source, e))))
        (FlowEngine.truthy definition.startNode)
        (FlowEngine.mkInstance flowId input executionId now definition.startNode)
        s.mem [] [] fuel = some out →
      out.err = none →
      ∃ r s', FlowEngine.executeFlow env s flowId input executionId now fuel
          = some (Except.ok r, s') ∧
        r.status = FlowStatus.completed ∧
        r.executionPath = out.path) := by
  constructor
  · intro env nodes edges fuel cur inst mem path results node nodeResult mem' edge c
      hnode hexec hedge hcond hthrow
    have hev : FlowEngine.evaluateCondition env c
        (mergeVars inst.variables nodeResult.output) = false := by
      simp [FlowEngine.evaluateCondition, hthrow]
    simp only [FlowEngine.flowLoop, hnode, hexec, hedge, hcond, hev]
    simp
  · intro env s flowId input executionId now fuel definition out hdef hmiss hloop herr
    have hinst : FlowEngine.executeFlowInstance env definition
        (FlowEngine.mkInstance flowId input executionId now definition.startNode)
        s.mem now fuel
        = some (Except.ok
            ({ id := executionId, flowId := flowId, status := FlowStatus.completed,
               startTime := now, endTime := now, executionTime := now - now,
               executionPath := out.path, results := out.results,
               output := out.inst.variables,
               memoryUsage := out.mem.getCurrentUsage,
               performance := { nodesExecuted := out.path.length,
                                memoryPeak := out.mem.getCurrentUsage,
                                cacheHits := 0, cacheMisses := 1 } },
             out.inst, out.mem)) := by
      simp only [FlowEngine.executeFlowInstance, hloop, herr]
      rfl
    refine ⟨{ id := executionId, flowId := flowId, status := FlowStatus.completed,
              startTime := now, endTime := now, executionTime := now - now,
              executionPath := out.path, results := out.results,
              output := out.inst.variables,
              memoryUsage := out.mem.getCurrentUsage,
              performance := { nodesExecuted := out.path.length,
                               memoryPeak := out.mem.getCurrentUsage,
                               cacheHits := 0, cacheMisses := 1 } },
      { s with
        cache := FlowCache.set
          (FlowCache.get s.cache now (FlowEngine.generateCacheKey flowId input)).2
          now (FlowEngine.generateCacheKey flowId input)
          { id := executionId, flowId := flowId, status := FlowStatus.completed,
              startTime := now, endTime := now, executionTime := now - now,
              executionPath := out.path, results := out.results,
              output := out.inst.variables,
              memoryUsage := out.mem.getCurrentUsage,
              performance := { nodesExecuted := out.path.length,
                               memoryPeak := out.mem.getCurrentUsage,
                               cacheHits := 0, cacheMisses := 1 } },
        activeFlows := eraseKey (setKey s.activeFlows executionId
          (FlowEngine.mkInstance flowId input executionId now definition.startNode))
          executionId,
        mem := out.mem,
        metrics := FlowEngine.updateMetrics s.metrics
          { id := executionId, flowId := flowId, status := FlowStatus.completed,
              startTime := now, endTime := now, executionTime := now - now,
              executionPath := out.path, results := out.results,
              output := out.inst.variables,
              memoryUsage := out.mem.getCurrentUsage,
              performance := { nodesExecuted := out.path.length,
                               memoryPeak := out.mem.getCurrentUsage,
                               cacheHits := 0, cacheMisses := 1 } }
          out.mem.getCurrentUsage }, ?_, rfl, rfl⟩
    simp [FlowEngine.executeFlow, hdef, hmiss, hinst]

/-- One-node flow with a self-edge whose condition string is malformed; the
handler for type "t" succeeds with output (y := 2). The expression evaluator
throws on the condition (modelled as `none`). -/
def c10env : FlowEnv := ⟨[("t", fun _ => Except.ok [("y", Val.vint 2)])], fun _ _ => none⟩

def c10def : FlowDefinition :=
  ⟨"f", "F", "n", [⟨"n", "t", "", []⟩], [⟨"ed", "n", "n", some "]["⟩]⟩

def c10s : EngineState :=
  FlowEngine.registerFlow ⟨[], [], FlowCache.mk0 FlowResult 1000 300000,
    MemoryManager.mk0 1073741824, ⟨0, 0, 0, 0, 0⟩, 0⟩ c10def

def c10nr : NodeRunResult := ⟨"n", "t", [("y", Val.vint 2)], 6, 0⟩

def c10mem : MemoryManager :=
  (MemoryManager.updateUsage (MemoryManager.mk0 1073741824) "n" ((6 : Nat) : ℚ)).1

/-- Witness for C10: on the concrete flow the loop breaks at "n" with a
completed partial path, and executeFlow completes with path ["n"]. -/
theorem claim_C10_witness :
    FlowEngine.flowLoop c10env
      (FlowEngine.mapFromPairs (c10def.nodes.map (fun n => (n.id, n))))
      (FlowEngine.mapFromPairs (c10def.edges.map (fun e => (e.source, e))))
      (some "n") (FlowEngine.mkInstance "f" [] "e1" 0 "n")
      (MemoryManager.mk0 1073741824) [] [] 4
      = some ⟨none, ⟨"e1", "f", FlowStatus.running, 0, [], "n", [("y", Val.vint 2)], 0⟩,
              c10mem, ["n"], [c10nr]⟩ ∧
    (∃ r s', FlowEngine.executeFlow c10env c10s "f" [] "e1" 0 4
        = some (Except.ok r, s') ∧ r.status = FlowStatus.completed ∧
        r.executionPath = ["n"]) :=
  ⟨claim_C10_theorem.1 c10env _ _ 3 "n" (FlowEngine.mkInstance "f" [] "e1" 0 "n")
      (MemoryManager.mk0 1073741824) [] [] ⟨"n", "t", "", []⟩ c10nr c10mem
      ⟨"ed", "n", "n", some "]["⟩ "][" rfl rfl rfl rfl rfl,
   claim_C10_theorem.2 c10env c10s "f" [] "e1" 0 4 c10def
     ⟨none, ⟨"e1", "f", FlowStatus.running, 0, [], "n", [("y", Val.vint 2)], 0⟩,
      c10mem, ["n"], [c10nr]⟩
     rfl rfl rfl rfl⟩

/-- Registered one-node flow with a succeeding handler, fresh engine. -/
def c1env : FlowEnv := ⟨[("t", fun _ => Except.ok [("y", Val.vint 2)])], fun _ _ => none⟩

def c1def : FlowDefinition := ⟨"f", "F", "n", [⟨"n", "t", "", []⟩], []⟩

def c1s : EngineState :=
  FlowEngine.registerFlow ⟨[], [], FlowCache.mk0 FlowResult 1000 300000,
    MemoryManager.mk0 1073741824, ⟨0, 0, 0, 0, 0⟩, 0⟩ c1def

/-- C1: executing the same (flowId, input) twice with caching on. The second
call returns the identical FlowResult from the cache and records exactly one
more cache-hit event — but no numeric cache-hit counter moves: the returned
result still reports performance.cacheHits = 0 and cacheMisses = 1 (the
hard-coded TODO values), and the FlowCache stats hit counter stays 0 because
no access ever increments an entry's accessCount. -/
theorem claim_C1_theorem :
    ∃ r1 s1 r2 s2,
      FlowEngine.executeFlow c1env c1s "f" [("x", Val.vint 1)] "e1" 0 5
        = some (Except.ok r1, s1) ∧
      FlowEngine.executeFlow c1env s1 "f" [("x", Val.vint 1)] "e2" 1 5
        = some (Except.ok r2, s2) ∧
      r2 = r1 ∧
      r2.output = r1.output ∧
      s2.cacheHitEvents = s1.cacheHitEvents + 1 ∧
      r2.performance.cacheHits = 0 ∧
      r2.performance.cacheMisses = 1 ∧
      (FlowCache.getStats s2.cache 1 (fun _ => "")).hits = 0 ∧
      (FlowCache.getStats s2.cache 1 (fun _ => "")).misses = 0 :=
  ⟨_, _, _, _, rfl, rfl, rfl, rfl, rfl, rfl, rfl, rfl, rfl⟩

/- ## AsyncWorkflowEngine (src AsyncWorkflowEngine.ts)
The coarser orchestration layer: whole-workflow executions with per-execution
contexts, plus parallel/sequence/conditional/loop composition. Steps are
built from the node declaration order; `executeNode` is the source's
placeholder, which always succeeds instantly (so the timeout race always
resolves with the result and the step-failure catch is unreachable).
`Date.now()` is modelled as 0 and execution ids by a counter. -/

structure WorkflowNode where
  id : String
  type : String
  label : String
deriving DecidableEq, Repr

structure WorkflowEdge where
  id : String
  source : String
  target : String
deriving DecidableEq, Repr

structure Workflow where
  id : String
  name : String
  nodes : List WorkflowNode
  edges : List WorkflowEdge
deriving DecidableEq, Repr

/-- `executeNode`'s literal output object (ISO timestamp omitted). -/
structure NodeOut where
  nodeId : String
  nodeType : String
  result : String
deriving DecidableEq, Repr

inductive MetaVal : Type where
  | input (v : Vars)
  | workflowId (id : String)
  | stepResult (r : NodeOut)
deriving DecidableEq, Repr

structure WorkflowExecutionContext where
  id : String
  status : FlowStatus
  startTime : Int
  endTime : Option Int
  progress : Int
  currentStep : String
  errors : List String
  warnings : List String
  metadata : List (String × MetaVal)
deriving DecidableEq, Repr

structure WorkflowStep where
  id : String
  name : String
  type : String
  node : WorkflowNode
  dependencies : List String
  timeout : Int
  retryAttempts : Nat
deriving DecidableEq, Repr

structure AWMetrics where
  totalExecutions : Nat
  successfulExecutions : Nat
  failedExecutions : Nat
  averageExecutionTime : ℚ
  cacheHits : Nat
  cacheMisses : Nat
deriving DecidableEq, Repr

structure AWEngine where
  workflows : List (String × Workflow)
  executions : List (String × WorkflowExecutionContext)
  nextId : Nat
  metrics : AWMetrics
deriving DecidableEq, Repr

namespace AsyncWorkflowEngine

def registerWorkflow (e : AWEngine) (workflow : Workflow) : AWEngine :=
  { e with workflows := setKey e.workflows workflow.id workflow }

def determineStepType (node : WorkflowNode) : String :=
  match node.type with
  | "start" => "sync"
  | "end" => "sync"
  | "process" => "async"
  | "decision" => "conditional"
  | "loop" => "loop"
  | "database" => "async"
  | "api" => "async"
  | _ => "sync"

def getNodeDependencies (node : WorkflowNode) (workflow : Workflow) : List String :=
  (workflow.edges.filter (fun e => e.target = node.id)).map (fun e => e.source)

/-- Steps come from the node declaration order, each carrying its incoming
edges' sources as `dependencies`. -/
def createWorkflowSteps (workflow : Workflow) : List WorkflowStep :=
  workflow.nodes.map (fun node =>
    { id := node.id, name := node.label, type := determineStepType node, node := node,
      dependencies := getNodeDependencies node workflow,
      timeout := 30000, retryAttempts := 3 })

/-- The source's placeholder node execution: always succeeds. -/
def executeNode (node : WorkflowNode) (_ctx : WorkflowExecutionContext) : NodeOut :=
  { nodeId := node.id, nodeType := node.type, result := "Executed " ++ node.label }

def executeStep (step : WorkflowStep) (ctx : WorkflowExecutionContext) : NodeOut :=
  executeNode step.node ctx

/-- The body of `executeWorkflowSteps`' for-loop. Note: no dependency check
of any kind happens before a step runs. -/
def stepsLoop (total : Nat) :
    List WorkflowStep → Nat → WorkflowExecutionContext → WorkflowExecutionContext
  | [], _, ctx => ctx
  | step :: rest, i, ctx =>
    let ctx1 := { ctx with currentStep := step.name,
                           progress := round (((i : ℚ) / (total : ℚ)) * 100) }
    let result := executeStep step ctx1
    let md := setKey ctx1.metadata ("step_" ++ step.id ++ "_result") (MetaVal.stepResult result)
    let ctx2 := { ctx1 with metadata := md }
    stepsLoop total rest (i + 1) ctx2

def executeWorkflowSteps (workflow : Workflow) (ctx : WorkflowExecutionContext) :
    WorkflowExecutionContext :=
  let ctx1 := { ctx with status := FlowStatus.running, currentStep := "executing" }
  let steps := createWorkflowSteps workflow
  let ctx2 := stepsLoop steps.length steps 0 ctx1
  { ctx2 with progress := 100 }

def executeWorkflow (e : AWEngine) (workflowId : String) (input : Vars) :
    Except String (AWEngine × WorkflowExecutionContext) :=
  match lookupKey e.workflows workflowId with
  | none => Except.error ("Workflow " ++ workflowId ++ " not found")
  | some workflow =>
    let executionId := "exec_" ++ toString e.nextId
    let ctx0 : WorkflowExecutionContext :=
      { id := executionId, status := FlowStatus.pending, startTime := 0, endTime := none,
        progress := 0, currentStep := "initializing", errors := [], warnings := [],
        metadata := [("input", MetaVal.input input),
                     ("workflowId", MetaVal.workflowId workflowId)] }
    let ctx1 := executeWorkflowSteps workflow ctx0
    let ctx2 := { ctx1 with status := FlowStatus.completed, endTime := some 0,
                            progress := 100 }
    Except.ok
      ({ e with executions := setKey e.executions executionId ctx2,
                nextId := e.nextId + 1,
                metrics := { e.metrics with
                  totalExecutions := e.metrics.totalExecutions + 1,
                  successfulExecutions := e.metrics.successfulExecutions + 1,
                  averageExecutionTime :=
                    (e.metrics.averageExecutionTime + (((0 : Int) - 0 : Int) : ℚ)) / 2 } },
       ctx2)

end AsyncWorkflowEngine

theorem lookupKey_append_none {α : Type} (l m : List (String × α)) (k : String)
    (h : lookupKey l k = none) : lookupKey (l ++ m) k = lookupKey m k := by
  induction l with
  | nil => rfl
  | cons p rest ih =>
    obtain ⟨k', v'⟩ := p
    by_cases hk : k' = k
    · simp [lookupKey, hk] at h
    · have h' : lookupKey rest k = none := by simpa [lookupKey, hk] using h
      simpa [lookupKey, hk] using ih h'

theorem setKey_fresh_append {α : Type} (l : List (String × α)) (k : String) (v : α)
    (h : lookupKey l k = none) : setKey l k v = l ++ [(k, v)] := by
  induction l with
  | nil => rfl
  | cons p rest ih =>
    obtain ⟨k', v'⟩ := p
    by_cases hk : k' = k
    · simp [lookupKey, hk] at h
    · have h' : lookupKey rest k = none := by simpa [lookupKey, hk] using h
      simp [setKey, hk, ih h']

/-- Behaviour of the `executeWorkflowSteps` loop when all step-result metadata
keys are fresh and pairwise distinct: every step runs, in list order, appending
its result to the metadata; the `errors` array is never touched. -/
theorem stepsLoop_spec (total : Nat) (steps : List WorkflowStep) :
    ∀ (i : Nat) (ctx : WorkflowExecutionContext),
      (∀ st ∈ steps, lookupKey ctx.metadata ("step_" ++ st.id ++ "_result") = none) →
      (steps.map (fun st => "step_" ++ st.id ++ "_result")).Nodup →
      (AsyncWorkflowEngine.stepsLoop total steps i ctx).errors = ctx.errors ∧
      (AsyncWorkflowEngine.stepsLoop total steps i ctx).metadata
        = ctx.metadata ++ steps.map (fun st =>
            ("step_" ++ st.id ++ "_result",
             MetaVal.stepResult ⟨st.node.id, st.node.type, "Executed " ++ st.node.label⟩)) := by
  induction steps with
  | nil =>
    intro i ctx _ _
    exact ⟨rfl, by simp [AsyncWorkflowEngine.stepsLoop]⟩
  | cons step rest ih =>
    intro i ctx hfresh hnodup
    have hfresh0 : lookupKey ctx.metadata ("step_" ++ step.id ++ "_result") = none :=
      hfresh step (List.mem_cons_self step rest)
    have hstep : AsyncWorkflowEngine.stepsLoop total (step :: rest) i ctx
        = AsyncWorkflowEngine.stepsLoop total rest (i + 1)
            { ctx with currentStep := step.name,
                       progress := round (((i : ℚ) / (total : ℚ)) * 100),
                       metadata := setKey ctx.metadata ("step_" ++ step.id ++ "_result")
                         (MetaVal.stepResult
                           ⟨step.node.id, step.node.type, "Executed " ++ step.node.label⟩) } := rfl
    have hmd : setKey ctx.metadata ("step_" ++ step.id ++ "_result")
        (MetaVal.stepResult ⟨step.node.id, step.node.type, "Executed " ++ step.node.label⟩)
        = ctx.metadata ++ [("step_" ++ step.id ++ "_result",
            MetaVal.stepResult ⟨step.node.id, step.node.type, "Executed " ++ step.node.label⟩)] :=
      setKey_fresh_append _ _ _ hfresh0
    have hnd1 : ("step_" ++ step.id ++ "_result") ∉
        rest.map (fun st => "step_" ++ st.id ++ "_result") :=
      (List.nodup_cons.mp hnodup).1
    have hnd2 : (rest.map (fun st => "step_" ++ st.id ++ "_result")).Nodup :=
      (List.nodup_cons.mp hnodup).2
    rw [hstep]
    have hfresh' : ∀ st ∈ rest,
        lookupKey (ctx.metadata ++ [("step_" ++ step.id ++ "_result",
            MetaVal.stepResult
              ⟨step.node.id, step.node.type, "Executed " ++ step.node.label⟩)])
          ("step_" ++ st.id ++ "_result") = none := by
      intro st hst
      have hne : "step_" ++ step.id ++ "_result" ≠ "step_" ++ st.id ++ "_result" := by
        intro hcontra
        exact hnd1 (hcontra ▸ List.mem_map_of_mem (fun st => "step_" ++ st.id ++ "_result") hst)
      rw [lookupKey_append_none _ _ _ (hfresh st (List.mem_cons_of_mem step hst))]
      simp [lookupKey, hne]
    have ihh := ih (i + 1)
      { ctx with currentStep := step.name,
                 progress := round (((i : ℚ) / (total : ℚ)) * 100),
                 metadata := setKey ctx.metadata ("step_" ++ step.id ++ "_result")
                   (MetaVal.stepResult
                     ⟨step.node.id, step.node.type, "Executed " ++ step.node.label⟩) }
      (by simpa [hmd] using hfresh') hnd2
    refine ⟨ihh.1, ?_⟩
    rw [ihh.2]
    simp [hmd]

/-- C4: AMENDED. The spec claims each step's declared dependencies are checked
against the already-executed step ids and that a step fails with
`UnmetDependencyError` when a dependency has not yet run. In the source,
`executeWorkflowSteps` performs no dependency check at all: steps run in node
declaration order, every step succeeds and records its result in the metadata,
and the `errors` array is never written. This theorem states the amended
behaviour (under fresh, pairwise-distinct step-result metadata keys). -/
theorem claim_C4_theorem (workflow : Workflow) (ctx : WorkflowExecutionContext)
    (hfresh : ∀ n ∈ workflow.nodes,
      lookupKey ctx.metadata ("step_" ++ n.id ++ "_result") = none)
    (hnodup : (workflow.nodes.map (fun n => "step_" ++ n.id ++ "_result")).Nodup) :
    (AsyncWorkflowEngine.executeWorkflowSteps workflow ctx).errors = ctx.errors ∧
    (AsyncWorkflowEngine.executeWorkflowSteps workflow ctx).metadata
      = ctx.metadata ++ workflow.nodes.map (fun n =>
          ("step_" ++ n.id ++ "_result",
           MetaVal.stepResult ⟨n.id, n.type, "Executed " ++ n.label⟩)) := by
  have hsteps : AsyncWorkflowEngine.executeWorkflowSteps workflow ctx
      = { AsyncWorkflowEngine.stepsLoop (AsyncWorkflowEngine.createWorkflowSteps workflow).length
            (AsyncWorkflowEngine.createWorkflowSteps workflow) 0
            { ctx with status := FlowStatus.running, currentStep := "executing" }
          with progress := 100 } := rfl
  have hfresh' : ∀ st ∈ AsyncWorkflowEngine.createWorkflowSteps workflow,
      lookupKey ctx.metadata ("step_" ++ st.id ++ "_result") = none := by
    intro st hst
    obtain ⟨n, hn, hmap⟩ := List.mem_map.mp hst
    subst hmap
    exact hfresh n hn
  have hnodup' : ((AsyncWorkflowEngine.createWorkflowSteps workflow).map
      (fun st => "step_" ++ st.id ++ "_result")).Nodup := by
    unfold AsyncWorkflowEngine.createWorkflowSteps
    rw [List.map_map]
    exact hnodup
  have hmain := stepsLoop_spec (AsyncWorkflowEngine.createWorkflowSteps workflow).length
    (AsyncWorkflowEngine.createWorkflowSteps workflow) 0
    { ctx with status := FlowStatus.running, currentStep := "executing" } hfresh' hnodup'
  constructor
  · rw [hsteps]
    exact hmain.1
  · rw [hsteps]
    show (AsyncWorkflowEngine.stepsLoop _ _ 0 _).metadata = _
    rw [hmain.2]
    unfold AsyncWorkflowEngine.createWorkflowSteps
    rw [List.map_map]
    rfl

/-- Two process nodes declared as [b, a] with an edge a → b: step b declares a
dependency on a but runs first anyway, successfully and without any error. -/
def c4wf : Workflow :=
  ⟨"w", "W", [⟨"b", "process", "B"⟩, ⟨"a", "process", "A"⟩], [⟨"ed", "a", "b"⟩]⟩

def c4ctx : WorkflowExecutionContext :=
  ⟨"x", FlowStatus.pending, 0, none, 0, "initializing", [], [], []⟩

/-- C4 counterexample: in `c4wf` the first step (node b) declares the
dependency ["a"], which has not run, yet execution records no error and
step b's result lands in the metadata first — there is no dependency check
and no `UnmetDependencyError`. -/
theorem claim_C4_counterexample :
    ((AsyncWorkflowEngine.createWorkflowSteps c4wf).map
        (fun st => (st.id, st.dependencies)) = [("b", ["a"]), ("a", [])]) ∧
    (AsyncWorkflowEngine.executeWorkflowSteps c4wf c4ctx).errors = [] ∧
    keysOf (AsyncWorkflowEngine.executeWorkflowSteps c4wf c4ctx).metadata
      = ["step_b_result", "step_a_result"] :=
  ⟨rfl, rfl, rfl⟩

theorem claim_C4_witness :
    (∀ n ∈ c4wf.nodes, lookupKey c4ctx.metadata ("step_" ++ n.id ++ "_result") = none) ∧
    (c4wf.nodes.map (fun n => "step_" ++ n.id ++ "_result")).Nodup ∧
    ((AsyncWorkflowEngine.executeWorkflowSteps c4wf c4ctx).errors = c4ctx.errors ∧
     (AsyncWorkflowEngine.executeWorkflowSteps c4wf c4ctx).metadata
       = c4ctx.metadata ++ c4wf.nodes.map (fun n =>
           ("step_" ++ n.id ++ "_result",
            MetaVal.stepResult ⟨n.id, n.type, "Executed " ++ n.label⟩))) :=
  ⟨by decide, by decide, claim_C4_theorem c4wf c4ctx (by decide) (by decide)⟩

/-- One entry of `executeWorkflowsConditional`'s `conditions` array; `input`
is optional (JS `undefined` falls back to `executeWorkflow`'s `{}` default). -/
structure CondEntry where
  cond : WorkflowExecutionContext → Bool
  workflowId : String
  input : Option Vars

namespace AsyncWorkflowEngine

/-- The literal object passed to a predicate while no workflow has run yet. -/
def emptySyntheticContext : WorkflowExecutionContext :=
  { id := "", status := FlowStatus.pending, startTime := 0, endTime := none, progress := 0,
    currentStep := "", errors := [], warnings := [], metadata := [] }

/-- The for-loop of `executeWorkflowsConditional`: `execs` is the mutable
`executions` array, `last` the mutable `context` variable (null initially).
Note there is no `break`: every matching entry runs. -/
def conditionalLoop :
    AWEngine → List CondEntry → List WorkflowExecutionContext →
      Option WorkflowExecutionContext →
      Except String (AWEngine × List WorkflowExecutionContext)
  | e, [], execs, _ => Except.ok (e, execs)
  | e, cnd :: rest, execs, last =>
    if cnd.cond (last.getD emptySyntheticContext) then
      match executeWorkflow e cnd.workflowId (cnd.input.getD []) with
      | Except.error err => Except.error err
      | Except.ok (e', ctx) => conditionalLoop e' rest (execs ++ [ctx]) (some ctx)
    else conditionalLoop e rest execs last

/-- `if (defaultWorkflowId && executions.length === 0)`: a present default id
must also be truthy (non-empty) in JS, hence the `d ≠ ""` conjunct. -/
def executeWorkflowsConditional (e : AWEngine) (conditions : List CondEntry)
    (defaultWorkflowId : Option String) :
    Except String (AWEngine × List WorkflowExecutionContext) :=
  match conditionalLoop e conditions [] none with
  | Except.error err => Except.error err
  | Except.ok (e', execs) =>
    match defaultWorkflowId with
    | some d =>
      if d ≠ "" ∧ execs.length = 0 then
        match executeWorkflow e' d [] with
        | Except.error err => Except.error err
        | Except.ok (e'', ctx) => Except.ok (e'', execs ++ [ctx])
      else Except.ok (e', execs)
    | none => Except.ok (e', execs)

/-- Spec-side recursion, written from the AMENDED claim's words: evaluate each
predicate in order against the most recent execution's context (the empty
synthetic context initially) and run EVERY workflow whose predicate matches,
collecting their contexts in order. -/
def conditionalSpec :
    AWEngine → List CondEntry → WorkflowExecutionContext →
      Except String (AWEngine × List WorkflowExecutionContext)
  | e, [], _ => Except.ok (e, [])
  | e, cnd :: rest, prev =>
    if cnd.cond prev then
      match executeWorkflow e cnd.workflowId (cnd.input.getD []) with
      | Except.error err => Except.error err
      | Except.ok (e', ctx) =>
        match conditionalSpec e' rest ctx with
        | Except.error err => Except.error err
        | Except.ok (e'', tail) => Except.ok (e'', ctx :: tail)
    else conditionalSpec e rest prev

/-- Spec-side wrapper: if no workflow ran and a (truthy) default id is given,
run the default workflow. -/
def executeWorkflowsConditionalSpec (e : AWEngine) (conditions : List CondEntry)
    (defaultWorkflowId : Option String) :
    Except String (AWEngine × List WorkflowExecutionContext) :=
  match conditionalSpec e conditions emptySyntheticContext with
  | Except.error err => Except.error err
  | Except.ok (e', execs) =>
    match defaultWorkflowId with
    | some d =>
      if d ≠ "" ∧ execs.length = 0 then
        match executeWorkflow e' d [] with
        | Except.error err => Except.error err
        | Except.ok (e'', ctx) => Except.ok (e'', execs ++ [ctx])
      else Except.ok (e', execs)
    | none => Except.ok (e', execs)

theorem conditionalLoop_eq_spec (conds : List CondEntry) :
    ∀ (e : AWEngine) (execs : List WorkflowExecutionContext)
      (last : Option WorkflowExecutionContext),
      conditionalLoop e conds execs last
        = match conditionalSpec e conds (last.getD emptySyntheticContext) with
          | Except.error err => Except.error err
          | Except.ok (e', tail) => Except.ok (e', execs ++ tail) := by
  induction conds with
  | nil => intro e execs last; simp [conditionalLoop, conditionalSpec]
  | cons cnd rest ih =>
    intro e execs last
    by_cases hc : cnd.cond (last.getD emptySyntheticContext) = true
    · rw [conditionalLoop, conditionalSpec, if_pos hc, if_pos hc]
      cases hx : executeWorkflow e cnd.workflowId (cnd.input.getD []) with
      | error err => rfl
      | ok p =>
        obtain ⟨e', ctx⟩ := p
        dsimp only
        rw [ih e' (execs ++ [ctx]) (some ctx)]
        simp only [Option.getD_some]
        cases conditionalSpec e' rest ctx with
        | error err => rfl
        | ok q =>
          obtain ⟨e'', tail⟩ := q
          simp
    · rw [conditionalLoop, conditionalSpec, if_neg hc, if_neg hc]
      exact ih e execs last

end AsyncWorkflowEngine

/-- C5: AMENDED. The spec claims `executeWorkflowsConditional` runs only the
FIRST workflow whose predicate matches. The source loop has no break: it runs
EVERY workflow whose predicate matches, each predicate evaluated against the
most recent execution's context (the empty synthetic context until one has
run); only the default-workflow part of the claim is as specified. The amended
behaviour is stated as a refinement: the source loop equals the spec-side
recursion `executeWorkflowsConditionalSpec` written from the amended words. -/
theorem claim_C5_theorem (e : AWEngine) (conditions : List CondEntry)
    (defaultWorkflowId : Option String) :
    AsyncWorkflowEngine.executeWorkflowsConditional e conditions defaultWorkflowId
      = AsyncWorkflowEngine.executeWorkflowsConditionalSpec e conditions defaultWorkflowId := by
  unfold AsyncWorkflowEngine.executeWorkflowsConditional
    AsyncWorkflowEngine.executeWorkflowsConditionalSpec
  rw [AsyncWorkflowEngine.conditionalLoop_eq_spec]
  simp only [Option.getD_none]
  cases AsyncWorkflowEngine.conditionalSpec e conditions
      AsyncWorkflowEngine.emptySyntheticContext with
  | error err => rfl
  | ok p =>
    obtain ⟨e', tail⟩ := p
    dsimp only
    rw [List.nil_append]

def c5wf1 : Workflow := ⟨"w1", "W1", [⟨"n1", "process", "N1"⟩], []⟩

def c5wf2 : Workflow := ⟨"w2", "W2", [⟨"n2", "process", "N2"⟩], []⟩

def c5e : AWEngine :=
  ⟨[("w1", c5wf1), ("w2", c5wf2)], [], 0, ⟨0, 0, 0, 0, 0, 0⟩⟩

/-- C5 counterexample to the original claim: with two always-true predicates,
BOTH workflows run (two execution contexts are returned, the second one for
w2, and two executions are counted), not just the first match. -/
theorem claim_C5_counterexample :
    ∃ e' x1 x2,
      AsyncWorkflowEngine.executeWorkflowsConditional c5e
        [⟨fun _ => true, "w1", none⟩, ⟨fun _ => true, "w2", none⟩] none
        = Except.ok (e', [x1, x2]) ∧
      lookupKey x2.metadata "workflowId" = some (MetaVal.workflowId "w2") ∧
      e'.metrics.totalExecutions = 2 :=
  ⟨_, _, _, rfl, rfl, rfl⟩

/- ## Execution-status state machine (C3)
`executeWorkflow` writes its execution context's status pending (at creation,
when the context enters the `executions` map), then running (at the top of
`executeWorkflowSteps`), then completed (success) or failed (the catch arm);
`cancelExecution` writes cancelled only when the current status is running,
and writes nothing when the execution is unknown. The composite modes
(parallel / sequence / conditional / loop) only issue `executeWorkflow`
calls. A sequence of orchestrator operations is therefore a list of `ApiOp`s,
each expanding to the status writes (`MicroOp`s) the source performs on the
executions map, in order; `statesFrom` is the trace of map snapshots. -/

inductive MicroOp : Type where
  | create (id : String)
  | start (id : String)
  | finishOk (id : String)
  | finishFail (id : String)
  | cancel (id : String)
deriving DecidableEq, Repr

inductive ApiOp : Type where
  | exec (found : Bool) (id : String) (ok : Bool)
  | cancelExec (id : String)
deriving DecidableEq, Repr

def microStep (m : List (String × FlowStatus)) : MicroOp → List (String × FlowStatus)
  | MicroOp.create id => setKey m id FlowStatus.pending
  | MicroOp.start id => setKey m id FlowStatus.running
  | MicroOp.finishOk id => setKey m id FlowStatus.completed
  | MicroOp.finishFail id => setKey m id FlowStatus.failed
  | MicroOp.cancel id =>
    match lookupKey m id with
    | some FlowStatus.running => setKey m id FlowStatus.cancelled
    | _ => m

/-- The status writes an API call performs: a found `executeWorkflow` creates
(pending), starts (running) and finishes (completed or failed); a not-found
one throws before creating anything; `cancelExecution` performs its single
guarded write. -/
def microOf : ApiOp → List MicroOp
  | ApiOp.exec found id ok =>
    if found then
      [MicroOp.create id, MicroOp.start id,
       if ok then MicroOp.finishOk id else MicroOp.finishFail id]
    else []
  | ApiOp.cancelExec id => [MicroOp.cancel id]

def microProgram : List ApiOp → List MicroOp
  | [] => []
  | op :: rest => microOf op ++ microProgram rest

def statesFrom (m : List (String × FlowStatus)) :
    List MicroOp → List (List (String × FlowStatus))
  | [] => [m]
  | op :: rest => m :: statesFrom (microStep m op) rest

/-- The ids `generateExecutionId` hands to the `executeWorkflow` calls of a
program (globally unique in the source). -/
def execIds : List ApiOp → List String
  | [] => []
  | ApiOp.exec _ id _ :: rest => id :: execIds rest
  | ApiOp.cancelExec _ :: rest => execIds rest

def terminalStatus (s : FlowStatus) : Prop :=
  s = FlowStatus.completed ∨ s = FlowStatus.failed ∨ s = FlowStatus.cancelled

/-- The transitions the claimed state machine permits on an existing status. -/
def allowedTransition : FlowStatus → FlowStatus → Prop
  | FlowStatus.pending, FlowStatus.running => True
  | FlowStatus.running, FlowStatus.completed => True
  | FlowStatus.running, FlowStatus.failed => True
  | FlowStatus.running, FlowStatus.cancelled => True
  | _, _ => False

/-- One trace step is fine for every execution id: its status is unchanged,
or it is freshly created as pending, or it makes a permitted transition. -/
def stepOk (m m' : List (String × FlowStatus)) : Prop :=
  ∀ id : String,
    lookupKey m' id = lookupKey m id ∨
    (lookupKey m id = none ∧ lookupKey m' id = some FlowStatus.pending) ∨
    (∃ a b, lookupKey m id = some a ∧ lookupKey m' id = some b ∧ allowedTransition a b)

/-- A fine step that moreover never rewrites a terminal status. -/
def goodStep (m m' : List (String × FlowStatus)) : Prop :=
  stepOk m m' ∧
  ∀ id s, lookupKey m id = some s → terminalStatus s → lookupKey m' id = some s

theorem statesFrom_head (ops : List MicroOp) (m : List (String × FlowStatus)) :
    ∃ t, statesFrom m ops = m :: t := by
  cases ops with
  | nil => exact ⟨[], rfl⟩
  | cons op rest => exact ⟨statesFrom (microStep m op) rest, rfl⟩

theorem goodStep_create (m : List (String × FlowStatus)) (id : String)
    (h : lookupKey m id = none) : goodStep m (setKey m id FlowStatus.pending) := by
  constructor
  · intro j
    by_cases hj : j = id
    · subst hj
      exact Or.inr (Or.inl ⟨h, lookupKey_setKey_self m j FlowStatus.pending⟩)
    · exact Or.inl (lookupKey_setKey_other m id j FlowStatus.pending hj)
  · intro j s hs _
    by_cases hj : j = id
    · subst hj
      rw [h] at hs
      exact absurd hs (by simp)
    · rw [lookupKey_setKey_other m id j FlowStatus.pending hj]
      exact hs

theorem goodStep_set (m : List (String × FlowStatus)) (id : String) (a b : FlowStatus)
    (h : lookupKey m id = some a) (hab : allowedTransition a b)
    (hna : ¬ terminalStatus a) : goodStep m (setKey m id b) := by
  constructor
  · intro j
    by_cases hj : j = id
    · subst hj
      exact Or.inr (Or.inr ⟨a, b, h, lookupKey_setKey_self m j b, hab⟩)
    · exact Or.inl (lookupKey_setKey_other m id j b hj)
  · intro j s hs hts
    by_cases hj : j = id
    · subst hj
      rw [h] at hs
      obtain rfl : a = s := Option.some.inj hs
      exact absurd hts hna
    · rw [lookupKey_setKey_other m id j b hj]
      exact hs

theorem microChainGood : ∀ (program : List ApiOp) (m : List (String × FlowStatus)),
    (∀ id s, lookupKey m id = some s → terminalStatus s) →
    (∀ id, id ∈ execIds program → lookupKey m id = none) →
    (execIds program).Nodup →
    List.Chain' goodStep (statesFrom m (microProgram program)) := by
  intro program
  induction program with
  | nil =>
    intro m _ _ _
    exact List.chain'_singleton m
  | cons op rest ih =>
    intro m hterm hfresh hnodup
    cases op with
    | cancelExec id =>
      have hm' : microStep m (MicroOp.cancel id) = m := by
        cases hx : lookupKey m id with
        | none => simp [microStep, hx]
        | some s =>
          have hts := hterm id s hx
          cases s with
          | running => simp [terminalStatus] at hts
          | pending => simp [microStep, hx]
          | completed => simp [microStep, hx]
          | failed => simp [microStep, hx]
          | cancelled => simp [microStep, hx]
      show List.Chain' goodStep
        (m :: statesFrom (microStep m (MicroOp.cancel id)) (microProgram rest))
      rw [hm']
      obtain ⟨t, ht⟩ := statesFrom_head (microProgram rest) m
      rw [ht]
      have hchain := ih m hterm hfresh hnodup
      rw [ht] at hchain
      exact List.chain'_cons.mpr ⟨⟨fun _ => Or.inl rfl, fun _ _ h _ => h⟩, hchain⟩
    | exec found id ok =>
      have hfresh' : ∀ j ∈ execIds rest, lookupKey m j = none :=
        fun j hj => hfresh j (List.mem_cons_of_mem id hj)
      have hnodup' : (execIds rest).Nodup := (List.nodup_cons.mp hnodup).2
      have hid_notin : id ∉ execIds rest := (List.nodup_cons.mp hnodup).1
      have hid_none : lookupKey m id = none := hfresh id (List.mem_cons_self id _)
      cases found with
      | false => exact ih m hterm hfresh' hnodup'
      | true =>
        cases ok with
        | true =>
          have hterm3 : ∀ j s,
              lookupKey (setKey (setKey (setKey m id FlowStatus.pending) id
                FlowStatus.running) id FlowStatus.completed) j = some s →
                terminalStatus s := by
            intro j s hj
            by_cases hji : j = id
            · subst hji
              rw [lookupKey_setKey_self] at hj
              obtain rfl : FlowStatus.completed = s := Option.some.inj hj
              exact Or.inl rfl
            · rw [lookupKey_setKey_other _ _ _ _ hji, lookupKey_setKey_other _ _ _ _ hji,
                  lookupKey_setKey_other _ _ _ _ hji] at hj
              exact hterm j s hj
          have hfresh3 : ∀ j ∈ execIds rest,
              lookupKey (setKey (setKey (setKey m id FlowStatus.pending) id
                FlowStatus.running) id FlowStatus.completed) j = none := by
            intro j hj
            have hji : j ≠ id := fun hcontra => hid_notin (hcontra ▸ hj)
            rw [lookupKey_setKey_other _ _ _ _ hji, lookupKey_setKey_other _ _ _ _ hji,
                lookupKey_setKey_other _ _ _ _ hji]
            exact hfresh' j hj
          obtain ⟨t, ht⟩ := statesFrom_head (microProgram rest)
            (setKey (setKey (setKey m id FlowStatus.pending) id FlowStatus.running)
              id FlowStatus.completed)
          show List.Chain' goodStep
            (m :: setKey m id FlowStatus.pending
               :: setKey (setKey m id FlowStatus.pending) id FlowStatus.running
               :: statesFrom (setKey (setKey (setKey m id FlowStatus.pending) id
                    FlowStatus.running) id FlowStatus.completed) (microProgram rest))
          rw [ht]
          refine List.chain'_cons.mpr ⟨goodStep_create m id hid_none, ?_⟩
          refine List.chain'_cons.mpr ⟨goodStep_set _ id FlowStatus.pending FlowStatus.running
            (lookupKey_setKey_self m id FlowStatus.pending) trivial
            (by simp [terminalStatus]), ?_⟩
          refine List.chain'_cons.mpr ⟨goodStep_set _ id FlowStatus.running FlowStatus.completed
            (lookupKey_setKey_self _ id FlowStatus.running) trivial
            (by simp [terminalStatus]), ?_⟩
          rw [← ht]
          exact ih _ hterm3 hfresh3 hnodup'
        | false =>
          have hterm3 : ∀ j s,
              lookupKey (setKey (setKey (setKey m id FlowStatus.pending) id
                FlowStatus.running) id FlowStatus.failed) j = some s →
                terminalStatus s := by
            intro j s hj
            by_cases hji : j = id
            · subst hji
              rw [lookupKey_setKey_self] at hj
              obtain rfl : FlowStatus.failed = s := Option.some.inj hj
              exact Or.inr (Or.inl rfl)
            · rw [lookupKey_setKey_other _ _ _ _ hji, lookupKey_setKey_other _ _ _ _ hji,
                  lookupKey_setKey_other _ _ _ _ hji] at hj
              exact hterm j s hj
          have hfresh3 : ∀ j ∈ execIds rest,
              lookupKey (setKey (setKey (setKey m id FlowStatus.pending) id
                FlowStatus.running) id FlowStatus.failed) j = none := by
            intro j hj
            have hji : j ≠ id := fun hcontra => hid_notin (hcontra ▸ hj)
            rw [lookupKey_setKey_other _ _ _ _ hji, lookupKey_setKey_other _ _ _ _ hji,
                lookupKey_setKey_other _ _ _ _ hji]
            exact hfresh' j hj
          obtain ⟨t, ht⟩ := statesFrom_head (microProgram rest)
            (setKey (setKey (setKey m id FlowStatus.pending) id FlowStatus.running)
              id FlowStatus.failed)
          show List.Chain' goodStep
            (m :: setKey m id FlowStatus.pending
               :: setKey (setKey m id FlowStatus.pending) id FlowStatus.running
               :: statesFrom (setKey (setKey (setKey m id FlowStatus.pending) id
                    FlowStatus.running) id FlowStatus.failed) (microProgram rest))
          rw [ht]
          refine List.chain'_cons.mpr ⟨goodStep_create m id hid_none, ?_⟩
          refine List.chain'_cons.mpr ⟨goodStep_set _ id FlowStatus.pending FlowStatus.running
            (lookupKey_setKey_self m id FlowStatus.pending) trivial
            (by simp [terminalStatus]), ?_⟩
          refine List.chain'_cons.mpr ⟨goodStep_set _ id FlowStatus.running FlowStatus.failed
            (lookupKey_setKey_self _ id FlowStatus.running) trivial
            (by simp [terminalStatus]), ?_⟩
          rw [← ht]
          exact ih _ hterm3 hfresh3 hnodup'

theorem persist_cons :
    ∀ (post : List (List (String × FlowStatus))) (mm : List (String × FlowStatus)),
      List.Chain' goodStep (mm :: post) →
      ∀ id s, lookupKey mm id = some s → terminalStatus s →
        ∀ m' ∈ post, lookupKey m' id = some s := by
  intro post
  induction post with
  | nil =>
    intro mm _ id s _ _ m' hm'
    simp at hm'
  | cons b bs ih =>
    intro mm h id s hs hts m' hm'
    have h1 := List.chain'_cons.mp h
    have hb : lookupKey b id = some s := h1.1.2 id s hs hts
    rcases List.mem_cons.mp hm' with hmb | hmem
    · exact hmb ▸ hb
    · exact ih b h1.2 id s hb hts m' hmem

theorem chain_drop_prefix {α : Type} {R : α → α → Prop} :
    ∀ (pre l : List α), List.Chain' R (pre ++ l) → List.Chain' R l := by
  intro pre
  induction pre with
  | nil => intro l h; exact h
  | cons a rest ih =>
    intro l h
    exact ih l (List.Chain'.tail h)

/-- C3: along any sequence of orchestrator operations (executeWorkflow calls,
with fresh execution ids, and cancelExecution calls), every snapshot-to-
snapshot step of the executions map either leaves an execution's status
unchanged, creates it as pending, or moves it along the permitted chain:
pending to running, and running to one of completed, failed or cancelled;
and once a status is terminal it stays exactly that status in every later
snapshot. -/
theorem claim_C3_theorem (program : List ApiOp)
    (hnodup : (execIds program).Nodup) :
    List.Chain' stepOk (statesFrom [] (microProgram program)) ∧
    ∀ pre mm post, statesFrom [] (microProgram program) = pre ++ mm :: post →
      ∀ id s, lookupKey mm id = some s → terminalStatus s →
        ∀ m' ∈ post, lookupKey m' id = some s := by
  have hchain := microChainGood program []
    (fun _ _ h => Option.noConfusion h) (fun _ _ => rfl) hnodup
  constructor
  · exact hchain.imp (fun _ _ hab => hab.1)
  · intro pre mm post hl id s hs hts m' hm'
    have hsuf : List.Chain' goodStep (mm :: post) := by
      rw [hl] at hchain
      exact chain_drop_prefix pre (mm :: post) hchain
    exact persist_cons post mm hsuf id s hs hts m' hm'

def c3prog : List ApiOp :=
  [ApiOp.exec true "exec_0" true, ApiOp.cancelExec "exec_0",
   ApiOp.exec true "exec_1" false, ApiOp.cancelExec "exec_9"]

theorem claim_C3_witness :
    (execIds c3prog).Nodup ∧
    (List.Chain' stepOk (statesFrom [] (microProgram c3prog)) ∧
     ∀ pre mm post, statesFrom [] (microProgram c3prog) = pre ++ mm :: post →
       ∀ id s, lookupKey mm id = some s → terminalStatus s →
         ∀ m' ∈ post, lookupKey m' id = some s) :=
  ⟨by decide, claim_C3_theorem c3prog (by decide)⟩
